import Mathlib

/-!
Verification of the safetensors header codec of `app.py` (lora-metadata-viewer).

The Python source is shallowly embedded: files are byte lists (`Bytes`),
Python dicts produced by `json.loads` are ordered association lists with
unique keys, `json.loads` is modelled by a fuel-driven recursive-descent
JSON reader over decoded characters, and `json.dumps` by a serializer
parameterized on the separator style (Python's default separators versus
the compact separators used for the header).  JSON numbers are modelled as
integers: floating-point literals and non-finite constants are outside the
scope of this embedding.  Strings are Unicode scalar sequences (Lean
`Char`); lone-surrogate escape sequences, which CPython would keep as
unpaired surrogate code units, are rejected by the model reader.

All functions are executable and kernel-reducible, so concrete containers
evaluate by `rfl`.
-/

namespace SafetensorsCodec

abbrev Bytes := List Nat

/-- The double-quote character, code 34. -/
def quoteC : Char := Char.ofNat 34

/-- The backslash character, code 92. -/
def bslashC : Char := Char.ofNat 92

/-- The opening curly bracket, code 123. -/
def lbraceC : Char := Char.ofNat 123

/-- The closing curly bracket, code 125. -/
def rbraceC : Char := Char.ofNat 125

/-- JSON values as produced by Python's `json.loads`, with numbers
restricted to integers.  Objects are insertion-ordered association lists. -/
inductive Json where
  | null
  | bool (b : Bool)
  | num (n : Int)
  | str (s : String)
  | arr (xs : List Json)
  | obj (kvs : List (String × Json))

/-- JSON whitespace accepted by the reader. -/
def isWsC (c : Char) : Bool := c = ' ' || c = '\t' || c = '\n' || c = '\r'

/-- Drop leading JSON whitespace. -/
def skipWs : List Char → List Char
  | c :: cs => if isWsC c then skipWs cs else c :: cs
  | [] => []

/-- Decimal digit character for a value below ten. -/
def digitC (n : Nat) : Char := Char.ofNat (48 + n)

/-- Lowercase hexadecimal digit character for a value below sixteen. -/
def hexC (n : Nat) : Char := if n < 10 then Char.ofNat (48 + n) else Char.ofNat (87 + n)

/-- Numeric value of a hexadecimal digit character, upper or lower case. -/
def hexVal (c : Char) : Option Nat :=
  if 48 ≤ c.toNat ∧ c.toNat ≤ 57 then some (c.toNat - 48)
  else if 97 ≤ c.toNat ∧ c.toNat ≤ 102 then some (c.toNat - 87)
  else if 65 ≤ c.toNat ∧ c.toNat ≤ 70 then some (c.toNat - 55)
  else none

/-- Combine four hexadecimal digits, most significant first. -/
def hex4 (a b c d : Char) : Option Nat :=
  match hexVal a, hexVal b, hexVal c, hexVal d with
  | some va, some vb, some vc, some vd => some (((va * 16 + vb) * 16 + vc) * 16 + vd)
  | _, _, _, _ => none

/-- A `\uXXXX` escape for a code unit below 2^16, lowercase hex. -/
def escU (n : Nat) : List Char :=
  [bslashC, 'u', hexC (n / 4096 % 16), hexC (n / 256 % 16), hexC (n / 16 % 16), hexC (n % 16)]

/-- One character escaped as Python's `json.dumps` does with its default
`ensure_ascii=True`: printable ASCII other than quote and backslash is kept,
the short escapes cover quote, backslash and the five named controls, all
other controls and all non-ASCII become `\uXXXX` (a surrogate pair above
the basic plane). -/
def escChar (c : Char) : List Char :=
  if c = quoteC then [bslashC, quoteC]
  else if c = bslashC then [bslashC, bslashC]
  else if c = Char.ofNat 8 then [bslashC, 'b']
  else if c = Char.ofNat 12 then [bslashC, 'f']
  else if c = '\n' then [bslashC, 'n']
  else if c = '\r' then [bslashC, 'r']
  else if c = '\t' then [bslashC, 't']
  else if c.toNat < 32 then escU c.toNat
  else if c.toNat ≤ 126 then [c]
  else if c.toNat < 65536 then escU c.toNat
  else escU (55296 + (c.toNat - 65536) / 1024) ++ escU (56320 + (c.toNat - 65536) % 1024)

/-- Serialized body of a JSON string (without the surrounding quotes). -/
def serStrBody : List Char → List Char
  | [] => []
  | c :: cs => escChar c ++ serStrBody cs

/-- A serialized JSON string, quotes included. -/
def serStr (s : String) : List Char := quoteC :: (serStrBody s.data ++ [quoteC])

/-- Decimal digit characters of `n`, most significant first; the fuel is
structural and `n + 1` always suffices. -/
def natCharsAux : Nat → Nat → List Char
  | 0, _ => []
  | f + 1, n => if n < 10 then [digitC n] else natCharsAux f (n / 10) ++ [digitC (n % 10)]

/-- Decimal digit characters of a natural number. -/
def natChars (n : Nat) : List Char := natCharsAux (n + 1) n

/-- Decimal form of an integer, as Python prints it inside JSON. -/
def serInt (i : Int) : List Char :=
  if i < 0 then '-' :: natChars i.natAbs else natChars i.natAbs

/-- Item separator: Python's compact `(',', ':')` versus default `(', ', ': ')`. -/
def itemSepL (compact : Bool) : List Char := if compact then [','] else [',', ' ']

/-- Key separator: compact versus the default with a trailing space. -/
def kvSepL (compact : Bool) : List Char := if compact then [':'] else [':', ' ']

mutual
/-- Model of `json.dumps` producing characters; `compact` selects the
separator pair passed at line 117 of the source versus the default used at
line 109. -/
def serV (compact : Bool) : Json → List Char
  | .null => 'n' :: ['u', 'l', 'l']
  | .bool true => 't' :: ['r', 'u', 'e']
  | .bool false => 'f' :: ['a', 'l', 's', 'e']
  | .num i => serInt i
  | .str s => serStr s
  | .arr xs => '[' :: (serItems compact xs ++ [']'])
  | .obj kvs => lbraceC :: (serMembers compact kvs ++ [rbraceC])
def serItems (compact : Bool) : List Json → List Char
  | [] => []
  | [x] => serV compact x
  | x :: y :: ys => serV compact x ++ (itemSepL compact ++ serItems compact (y :: ys))
def serMembers (compact : Bool) : List (String × Json) → List Char
  | [] => []
  | [(k, v)] => serStr k ++ (kvSepL compact ++ serV compact v)
  | (k, v) :: m :: ms =>
      serStr k ++ (kvSepL compact ++ serV compact v) ++ (itemSepL compact ++ serMembers compact (m :: ms))
end

/-- The members rendering after the first member: empty or separator-led. -/
def serMembersTail (compact : Bool) (ms : List (String × Json)) : List Char :=
  match ms with
  | [] => []
  | m :: ms2 => itemSepL compact ++ serMembers compact (m :: ms2)

/-- `json.dumps(value)` with Python's default separators (source line 109). -/
def json_dumps (j : Json) : String := String.mk (serV false j)

/-- `json.dumps(header, separators=(',', ':'))` (source line 117). -/
def json_dumps_compact (j : Json) : String := String.mk (serV true j)

/-- Decimal digit test by code point. -/
def isDigitC (c : Char) : Bool := 48 ≤ c.toNat && c.toNat ≤ 57

/-- The digit run at the head of the input, and the remainder. -/
def takeDigits : List Char → List Char × List Char
  | c :: cs =>
      if isDigitC c then
        let p := takeDigits cs
        (c :: p.1, p.2)
      else ([], c :: cs)
  | [] => ([], [])

/-- A continuation that cannot extend a decimal literal. -/
def numSafe : List Char → Bool
  | [] => true
  | c :: _ => !(isDigitC c)

/-- Value of a digit run, most significant first. -/
def digitsToNat (ds : List Char) : Nat := ds.foldl (fun a c => 10 * a + (c.toNat - 48)) 0

/-- JSON forbids redundant leading zeros. -/
def zeroLeadOk : List Char → Bool
  | c :: _ :: _ => !(c = '0')
  | _ => true

/-- Integer literal reader: optional minus sign, then a digit run.  A
fractional or exponent part makes the surrounding document fall outside
this integer-only model. -/
def parseNum : List Char → Option (Json × List Char)
  | [] => none
  | c :: cs =>
      if c = '-' then
        match takeDigits cs with
        | ([], _) => none
        | (ds, r) =>
            if zeroLeadOk ds then some (.num (-(digitsToNat ds : Int)), r) else none
      else
        match takeDigits (c :: cs) with
        | ([], _) => none
        | (ds, r) =>
            if zeroLeadOk ds then some (.num (digitsToNat ds : Int), r) else none

/-- The character denoted by a single-character escape, if legal. -/
def simpleUnescape (e : Char) : Option Char :=
  if e = quoteC then some quoteC
  else if e = bslashC then some bslashC
  else if e = '/' then some '/'
  else if e = 'b' then some (Char.ofNat 8)
  else if e = 'f' then some (Char.ofNat 12)
  else if e = 'n' then some '\n'
  else if e = 'r' then some '\r'
  else if e = 't' then some '\t'
  else none

/-- Read a JSON string body after the opening quote, strict about raw
control characters as CPython is; surrogate pairs in `\u` escapes are
combined, lone surrogates rejected (model restriction).  The fuel is
structural; every step consumes at least one character, so input length
plus one always suffices (see `parseStr`). -/
def parseStrAux : Nat → List Char → Option (List Char × List Char)
  | 0, _ => none
  | f + 1, cs =>
    match cs with
    | [] => none
    | c :: r =>
      if c = quoteC then some ([], r)
      else if c = bslashC then
        match r with
        | [] => none
        | e :: r1 =>
          if e = 'u' then
            match r1 with
            | a :: b :: c2 :: d :: r2 =>
                match hex4 a b c2 d with
                | none => none
                | some n =>
                  if n < 55296 ∨ 57343 < n then
                    match parseStrAux f r2 with
                    | some p => some (Char.ofNat n :: p.1, p.2)
                    | none => none
                  else if n < 56320 then
                    match r2 with
                    | e2 :: u2 :: a2 :: b2 :: c3 :: d2 :: r3 =>
                        if e2 = bslashC ∧ u2 = 'u' then
                          match hex4 a2 b2 c3 d2 with
                          | none => none
                          | some m =>
                              if 56320 ≤ m ∧ m ≤ 57343 then
                                match parseStrAux f r3 with
                                | some p =>
                                    some (Char.ofNat (65536 + (n - 55296) * 1024 + (m - 56320)) :: p.1, p.2)
                                | none => none
                              else none
                        else none
                    | _ => none
                  else none
            | _ => none
          else
            match simpleUnescape e with
            | some ch =>
                match parseStrAux f r1 with
                | some p => some (ch :: p.1, p.2)
                | none => none
            | none => none
      else if c.toNat < 32 then none
      else
        match parseStrAux f r with
        | some p => some (c :: p.1, p.2)
        | none => none

/-- The JSON string body reader with its always-sufficient fuel. -/
def parseStr (cs : List Char) : Option (List Char × List Char) :=
  parseStrAux (cs.length + 1) cs

/-- Python dict lookup on the ordered association list. -/
def dictGet (kvs : List (String × Json)) (k : String) : Option Json :=
  match kvs with
  | [] => none
  | (k1, v) :: t => if k1 = k then some v else dictGet t k

/-- Python dict assignment: replace in place when the key exists, append
otherwise. -/
def dictSet (kvs : List (String × Json)) (k : String) (v : Json) : List (String × Json) :=
  match kvs with
  | [] => [(k, v)]
  | (k1, v1) :: t => if k1 = k then (k1, v) :: t else (k1, v1) :: dictSet t k v

/-- Build a Python dict from parsed members in order; a duplicate key keeps
the first position and the last value, as CPython's object hook does. -/
def buildDict (l : List (String × Json)) : List (String × Json) :=
  l.foldl (fun acc kv => dictSet acc kv.1 kv.2) []

mutual
/-- Fuel-driven JSON value reader; callers strip leading whitespace.  The
fuel decreases on every recursive step, and input length plus one always
suffices. -/
def parseJv : Nat → List Char → Option (Json × List Char)
  | 0, _ => none
  | fuel + 1, cs =>
    match cs with
    | [] => none
    | c :: r =>
      if c = 'n' then
        match r with
        | 'u' :: 'l' :: 'l' :: r2 => some (.null, r2)
        | _ => none
      else if c = 't' then
        match r with
        | 'r' :: 'u' :: 'e' :: r2 => some (.bool true, r2)
        | _ => none
      else if c = 'f' then
        match r with
        | 'a' :: 'l' :: 's' :: 'e' :: r2 => some (.bool false, r2)
        | _ => none
      else if c = '[' then
        match skipWs r with
        | [] => none
        | c2 :: r2 =>
            if c2 = ']' then some (.arr [], r2)
            else
              match parseJitems fuel (c2 :: r2) with
              | some (vs, r3) => some (.arr vs, r3)
              | none => none
      else if c = quoteC then
        match parseStr r with
        | some (s, r2) => some (.str (String.mk s), r2)
        | none => none
      else if c = lbraceC then
        match skipWs r with
        | [] => none
        | c2 :: r2 =>
            if c2 = rbraceC then some (.obj [], r2)
            else
              match parseJmembers fuel (c2 :: r2) with
              | some (ms, r3) => some (.obj (buildDict ms), r3)
              | none => none
      else parseNum (c :: r)
def parseJitems : Nat → List Char → Option (List Json × List Char)
  | 0, _ => none
  | fuel + 1, cs =>
    match parseJv fuel (skipWs cs) with
    | none => none
    | some (v, r) =>
        match skipWs r with
        | [] => none
        | c :: r2 =>
            if c = ',' then
              match parseJitems fuel r2 with
              | some (vs, r3) => some (v :: vs, r3)
              | none => none
            else if c = ']' then some ([v], r2)
            else none
def parseJmembers : Nat → List Char → Option (List (String × Json) × List Char)
  | 0, _ => none
  | fuel + 1, cs =>
    match skipWs cs with
    | [] => none
    | c :: r =>
        if c = quoteC then
          match parseStr r with
          | none => none
          | some (k, r1) =>
              match skipWs r1 with
              | [] => none
              | c1 :: r2 =>
                  if c1 = ':' then
                    match parseJv fuel (skipWs r2) with
                    | none => none
                    | some (v, r3) =>
                        match skipWs r3 with
                        | [] => none
                        | c2 :: r4 =>
                            if c2 = ',' then
                              match parseJmembers fuel r4 with
                              | some (ms, r5) => some ((String.mk k, v) :: ms, r5)
                              | none => none
                            else if c2 = rbraceC then some ([(String.mk k, v)], r4)
                            else none
                  else none
        else none
end

/-- Model of `json.loads` on a Python string: a single JSON document with
optional surrounding whitespace, `none` on any reader failure (the source
catches the raised `JSONDecodeError` / `ValueError`). -/
def json_loads (s : String) : Option Json :=
  let cs := skipWs s.data
  match parseJv (cs.length + 1) cs with
  | some (j, r) =>
      (match skipWs r with
       | [] => some j
       | _ => none)
  | none => none

/-- Key list of an association list. -/
def keysOf (kvs : List (String × Json)) : List String := kvs.map Prod.fst

/-- No duplicates among a key list. -/
def strNodup : List String → Bool
  | [] => true
  | x :: t => !(t.contains x) && strNodup t

mutual
/-- Well-formedness: every object along the value has duplicate-free keys.
Values built by the reader always satisfy it. -/
def wfJ : Json → Bool
  | .null => true
  | .bool _ => true
  | .num _ => true
  | .str _ => true
  | .arr xs => wfJL xs
  | .obj kvs => strNodup (keysOf kvs) && wfJM kvs
def wfJL : List Json → Bool
  | [] => true
  | x :: xs => wfJ x && wfJL xs
def wfJM : List (String × Json) → Bool
  | [] => true
  | (_, v) :: t => wfJ v && wfJM t
end

/-- UTF-8 bytes of one Unicode scalar value. -/
def utf8EncodeChar (c : Char) : Bytes :=
  let n := c.toNat
  if n < 128 then [n]
  else if n < 2048 then [192 + n / 64, 128 + n % 64]
  else if n < 65536 then [224 + n / 4096, 128 + n / 64 % 64, 128 + n % 64]
  else [240 + n / 262144, 128 + n / 4096 % 64, 128 + n / 64 % 64, 128 + n % 64]

/-- UTF-8 bytes of a character sequence; models Python `str.encode('utf-8')`. -/
def utf8Encode : List Char → Bytes
  | [] => []
  | c :: cs => utf8EncodeChar c ++ utf8Encode cs

/-- Strict UTF-8 decoding of one scalar: rejects stray continuation bytes,
overlong forms, surrogates and values beyond the last plane, as Python's
strict `bytes.decode('utf-8')` does. -/
def utf8DecodeOne : Bytes → Option (Char × Bytes)
  | [] => none
  | b0 :: rest =>
    if b0 < 128 then some (Char.ofNat b0, rest)
    else if b0 < 194 then none
    else if b0 < 224 then
      match rest with
      | b1 :: r =>
          if 128 ≤ b1 ∧ b1 < 192 then some (Char.ofNat ((b0 - 192) * 64 + (b1 - 128)), r)
          else none
      | [] => none
    else if b0 < 240 then
      match rest with
      | b1 :: b2 :: r =>
          if 128 ≤ b1 ∧ b1 < 192 ∧ 128 ≤ b2 ∧ b2 < 192 then
            let n := (b0 - 224) * 4096 + (b1 - 128) * 64 + (b2 - 128)
            if 2048 ≤ n ∧ (n < 55296 ∨ 57343 < n) then some (Char.ofNat n, r) else none
          else none
      | _ => none
    else if b0 < 245 then
      match rest with
      | b1 :: b2 :: b3 :: r =>
          if 128 ≤ b1 ∧ b1 < 192 ∧ 128 ≤ b2 ∧ b2 < 192 ∧ 128 ≤ b3 ∧ b3 < 192 then
            let n := (b0 - 240) * 262144 + (b1 - 128) * 4096 + (b2 - 128) * 64 + (b3 - 128)
            if 65536 ≤ n ∧ n < 1114112 then some (Char.ofNat n, r) else none
          else none
      | _ => none
    else none

/-- Decode a whole byte sequence; the fuel is the byte count, and each step
consumes at least one byte. -/
def utf8DecodeAux : Nat → Bytes → Option (List Char)
  | _, [] => some []
  | 0, _ :: _ => none
  | f + 1, b :: bs =>
      match utf8DecodeOne (b :: bs) with
      | some (c, r) =>
          (match utf8DecodeAux f r with
           | some cs => some (c :: cs)
           | none => none)
      | none => none

/-- Model of `bytes.decode('utf-8')`, `none` on a `UnicodeDecodeError`. -/
def utf8Decode (bs : Bytes) : Option (List Char) := utf8DecodeAux bs.length bs

/-- Model of `str.encode('utf-8')`. -/
def pyEncodeUtf8 (s : String) : Bytes := utf8Encode s.data

/-- `json.loads(bytes.decode('utf-8'))` with every failure caught. -/
def jsonLoadsBytes (bs : Bytes) : Option Json :=
  match utf8Decode bs with
  | some cs => json_loads (String.mk cs)
  | none => none

/-- `struct.unpack('<I', b[:4])[0]`: the little-endian 32-bit value of the
first four bytes.  The fallback is never reached behind the 8-byte guard. -/
def readU32LE (b : Bytes) : Nat :=
  match b with
  | b0 :: b1 :: b2 :: b3 :: _ => b0 + 256 * b1 + 65536 * b2 + 16777216 * b3
  | _ => 0

/-- The full unsigned 64-bit little-endian value of the first eight bytes,
as the safetensors format defines the length field. -/
def readU64LE (b : Bytes) : Nat :=
  match b with
  | b0 :: b1 :: b2 :: b3 :: b4 :: b5 :: b6 :: b7 :: _ =>
      b0 + 256 * b1 + 65536 * b2 + 16777216 * b3 +
        4294967296 * (b4 + 256 * b5 + 65536 * b6 + 16777216 * b7)
  | _ => 0

/-- `struct.pack('<I', n)` for `n` below 2^32. -/
def u32le (n : Nat) : Bytes := [n % 256, n / 256 % 256, n / 65536 % 256, n / 16777216 % 256]

/-- Python truthiness on a JSON value (`if not formatted_metadata`). -/
def isFalsy : Json → Bool
  | .null => true
  | .bool b => !b
  | .num n => n = 0
  | .str s => s.data.isEmpty
  | .arr xs => xs.isEmpty
  | .obj kvs => kvs.isEmpty

/-- Source lines 63-72: a string value is speculatively re-read as JSON and
kept raw when that fails; any other value passes through unchanged. -/
def processValue (v : Json) : Json :=
  match v with
  | .str s =>
      (match json_loads s with
       | some j => j
       | none => .str s)
  | _ => v

/-- Result of `extract_safetensors_metadata`: the decoded structured view
and the raw `__metadata__` dict. -/
structure ExtractResult where
  metadata : List (String × Json)
  formatted_metadata : List (String × Json)

/-- The byte slice holding the JSON header, as the source slices it. -/
def header_segment (file : Bytes) : Bytes := (file.drop 8).take (readU32LE (file.take 8))

/-- The parsed JSON header of a container, when the slice decodes. -/
def headerJson (file : Bytes) : Option Json := jsonLoadsBytes (header_segment file)

/-- The tensor payload: everything after the declared header. -/
def payload_segment (file : Bytes) : Bytes := file.drop (8 + readU32LE (file.take 8))

/-- Source lines 52-77: parse the header slice, pick `__metadata__` with an
empty-dict default, fail on falsy, iterate `.items()` (an `AttributeError`
on a non-dict is caught into `None`), re-typing each string value. -/
def extractFromHeaderBytes (metadata_bytes : Bytes) : Option ExtractResult :=
  match jsonLoadsBytes metadata_bytes with
  | some (Json.obj header) =>
      let formatted_metadata := (dictGet header "__metadata__").getD (Json.obj [])
      if isFalsy formatted_metadata then none
      else
        match formatted_metadata with
        | Json.obj m => some ⟨m.map (fun kv => (kv.1, processValue kv.2)), m⟩
        | _ => none
  | some _ => none
  | none => none

/-- Source lines 35-81, `extract_safetensors_metadata`: read 8 bytes, take
the LOW FOUR as the header length (the high four bytes are ignored), slice
and process the header; every raised exception becomes `None`. -/
def extract_safetensors_metadata (file : Bytes) : Option ExtractResult :=
  let header_bytes := file.take 8
  if header_bytes.length < 8 then none
  else
    let metadata_size := readU32LE header_bytes
    let metadata_bytes := (file.drop 8).take metadata_size
    if metadata_bytes.length < metadata_size then none
    else extractFromHeaderBytes metadata_bytes

/-- Source lines 106-111: composite values are serialized with the default
separators; everything else — including numbers and booleans — is stored
unchanged. -/
def formatValue (v : Json) : Json :=
  match v with
  | .obj _ => .str (json_dumps v)
  | .arr _ => .str (json_dumps v)
  | _ => v

/-- The `formatted_metadata` dict built from the supplied mapping. -/
def buildFormatted (new_metadata : List (String × Json)) : List (String × Json) :=
  new_metadata.foldl (fun acc kv => dictSet acc kv.1 (formatValue kv.2)) []

/-- Source lines 86-128, the pure part of `update_safetensors_metadata`:
everything up to (but excluding) the file write.  `none` models every path
that returns `False` before the write: short input, truncated header,
undecodable or non-object header JSON (assigning into a non-dict raises),
and an oversized new header that `struct.pack('<I', ...)` rejects. -/
def update_compute (file : Bytes) (new_metadata : List (String × Json)) : Option Bytes :=
  let header_bytes := file.take 8
  if header_bytes.length < 8 then none
  else
    let metadata_size := readU32LE header_bytes
    let metadata_bytes := (file.drop 8).take metadata_size
    if metadata_bytes.length < metadata_size then none
    else
      match jsonLoadsBytes metadata_bytes with
      | some (Json.obj header) =>
          let formatted_metadata := buildFormatted new_metadata
          let header2 := dictSet header "__metadata__" (Json.obj formatted_metadata)
          let new_header_bytes := pyEncodeUtf8 (json_dumps_compact (Json.obj header2))
          let new_metadata_size := new_header_bytes.length
          if new_metadata_size < 4294967296 then
            some ((u32le new_metadata_size ++ [0, 0, 0, 0] ++ new_header_bytes) ++
              file.drop (8 + metadata_size))
          else none
      | some _ => none
      | none => none

/-- `update_safetensors_metadata` as a transformer of the on-disk bytes:
the boolean is the function's return value and the second component the
file content afterwards.  The source writes only on the success path, after
the whole output has been assembled in memory. -/
def update_safetensors_metadata (file : Bytes) (new_metadata : List (String × Json)) :
    Bool × Bytes :=
  match update_compute file new_metadata with
  | some out => (true, out)
  | none => (false, file)

/-- Split a character list at every slash. -/
def splitSlash : List Char → List (List Char)
  | [] => [[]]
  | c :: cs =>
      if c = '/' then [] :: splitSlash cs
      else
        match splitSlash cs with
        | p :: ps => (c :: p) :: ps
        | [] => [[c]]

/-- `os.path.normpath` component processing for an absolute path: empty and
dot components vanish, a dot-dot pops (or vanishes at the root). -/
def normParts (stack : List (List Char)) : List (List Char) → List (List Char)
  | [] => stack.reverse
  | p :: ps =>
      if p = [] ∨ p = ['.'] then normParts stack ps
      else if p = ['.', '.'] then
        match stack with
        | _ :: t => normParts t ps
        | [] => normParts [] ps
      else normParts (p :: stack) ps

/-- Join components with slashes. -/
def joinSlash : List (List Char) → List Char
  | [] => []
  | [p] => p
  | p :: q :: ps => p ++ '/' :: joinSlash (q :: ps)

/-- `os.path.abspath` on an absolute path (the served root is made absolute
at startup, and joining keeps absoluteness): pure lexical normalization. -/
def os_abspath (s : String) : String :=
  String.mk ('/' :: joinSlash (normParts [] (splitSlash s.data)))

/-- `os.path.join` for a non-empty base: an absolute second argument wins,
otherwise a slash is inserted unless already present. -/
def os_path_join (a b : String) : String :=
  if b.data.head? = some '/' then b
  else if a.data = [] then b
  else if a.data.getLast? = some '/' then String.mk (a.data ++ b.data)
  else String.mk (a.data ++ '/' :: b.data)

/-- Python `str.startswith`. -/
def str_startswith (s p : String) : Bool := p.data.isPrefixOf s.data

/-- Outcome of the route-level path check: denied, or the request proceeds
against the resolved path (file lookup and codec run only after this). -/
inductive RouteDecision where
  | accessDenied
  | proceed (resolved : String)
deriving DecidableEq

/-- Source lines 197-204 (`serve_file`): join, make absolute, then the
`startswith` containment test. -/
def serve_file_check (files_dir filename : String) : RouteDecision :=
  let file_path := os_abspath (os_path_join files_dir filename)
  let files_dir_abs := os_abspath files_dir
  if str_startswith file_path files_dir_abs then .proceed file_path else .accessDenied

/-- Source lines 240-247 (`get_file_metadata`): the identical check. -/
def get_file_metadata_check (files_dir filename : String) : RouteDecision :=
  let file_path := os_abspath (os_path_join files_dir filename)
  let files_dir_abs := os_abspath files_dir
  if str_startswith file_path files_dir_abs then .proceed file_path else .accessDenied

/-- Source lines 281-288 (`update_file_metadata`): the identical check. -/
def update_file_metadata_check (files_dir filename : String) : RouteDecision :=
  let file_path := os_abspath (os_path_join files_dir filename)
  let files_dir_abs := os_abspath files_dir
  if str_startswith file_path files_dir_abs then .proceed file_path else .accessDenied

/-- A resolved path escapes the root when it is neither the root itself nor
below it in the directory tree. -/
def escapesRoot (root resolved : String) : Bool :=
  !(resolved.data = root.data || (root.data ++ ['/']).isPrefixOf resolved.data)

/-- All-whitespace test, for separator padding. -/
def allWs (cs : List Char) : Bool := cs.all isWsC

/-- Refinement reference for the value re-typing policy, following the
specification's words: a string value is parsed as JSON where possible and
kept raw otherwise; a non-string value is stored unchanged. -/
def specRetype (v : Json) : Json :=
  match v with
  | .str s => (json_loads s).getD (.str s)
  | _ => v

/-- The 26 bytes of the UTF-8 JSON text mapping `__metadata__` to the
one-entry dict sending the key `a` to the string `b`. -/
def hdr0 : Bytes :=
  [123, 34, 95, 95, 109, 101, 116, 97, 100, 97, 116, 97, 95, 95, 34, 58,
   123, 34, 97, 34, 58, 34, 98, 34, 125, 125]

/-- A well-formed concrete container: 8-byte length prefix declaring 26,
the header `hdr0`, and a 3-byte tensor payload. -/
def sampleFile : Bytes := [26, 0, 0, 0, 0, 0, 0, 0] ++ hdr0 ++ [1, 2, 3]

/-- A container whose 8-byte length field has a non-zero high word: as a
64-bit little-endian value it declares 2^32 + 2, far more than the two
header bytes actually present. -/
def highWordFile : Bytes := [2, 0, 0, 0, 1, 0, 0, 0] ++ [123, 125]

/-- Same shape with high word 2: 64-bit declared length 2 * 2^32 + 2. -/
def highWordFile2 : Bytes := [2, 0, 0, 0, 2, 0, 0, 0] ++ [123, 125]

/-- A truncated container: the low 32 bits declare 9 header bytes but none
follow. -/
def truncatedFile : Bytes := [9, 0, 0, 0, 0, 0, 0, 0]

/-- The structured-metadata update of the specification's round-trip
scenario. -/
def nm7 : List (String × Json) :=
  [("tags", Json.arr [Json.str "a", Json.str "b"]), ("rank", Json.num 8)]

/-- Fallback extraction result for `Option.getD`. -/
def emptyExtract : ExtractResult := ⟨[], []⟩

/-- Whether a JSON value is a string. -/
def isStrJ : Json → Bool
  | .str _ => true
  | _ => false


/-! ### Character and digit facts -/

theorem charToNat_ofNat (n : Nat) (h : n.isValidChar) : (Char.ofNat n).toNat = n := by
  simp only [Char.ofNat, h, dite_true, Char.ofNatAux, Char.toNat, UInt32.toNat]
  rfl

theorem charToNat_ofNat_lt (n : Nat) (h : n < 55296) : (Char.ofNat n).toNat = n :=
  charToNat_ofNat n (Or.inl h)

theorem charEq_of_toNat {a b : Char} (h : a.toNat = b.toNat) : a = b := by
  apply Char.eq_of_val_eq
  apply UInt32.eq_of_val_eq
  exact Fin.eq_of_val_eq h

theorem char_valid_toNat (c : Char) :
    c.toNat < 55296 ∨ (57343 < c.toNat ∧ c.toNat < 1114112) := by
  rcases c.valid with h | h
  · exact Or.inl h
  · exact Or.inr h

theorem digitC_toNat (n : Nat) (h : n < 10) : (digitC n).toNat = 48 + n :=
  charToNat_ofNat_lt _ (by omega)

theorem isDigitC_digitC (n : Nat) (h : n < 10) : isDigitC (digitC n) = true := by
  simp only [isDigitC, digitC_toNat n h, Bool.and_eq_true, decide_eq_true_eq]
  omega

theorem isDigitC_toNat {c : Char} (h : isDigitC c = true) :
    48 ≤ c.toNat ∧ c.toNat ≤ 57 := by
  simpa [isDigitC] using h

theorem digitC_ne_zeroC {n : Nat} (h0 : n ≠ 0) (h : n < 10) : ¬(digitC n = '0') := by
  intro he
  have : (digitC n).toNat = 48 := by rw [he]; rfl
  rw [digitC_toNat n h] at this
  omega

/-! ### Decimal digit strings -/

theorem natCharsAux_fuel (n : Nat) : ∀ f1 f2, n < f1 → n < f2 →
    natCharsAux f1 n = natCharsAux f2 n := by
  induction n using Nat.strongRecOn with
  | _ n ih =>
    intro f1 f2 h1 h2
    match f1, h1 with
    | f1 + 1, _ =>
    match f2, h2 with
    | f2 + 1, _ =>
    simp only [natCharsAux]
    by_cases h10 : n < 10
    · simp [h10]
    · simp only [if_neg h10]
      rw [ih (n / 10) (by omega) f1 f2 (by omega) (by omega)]

theorem natChars_unfold (n : Nat) :
    natChars n = if n < 10 then [digitC n] else natChars (n / 10) ++ [digitC (n % 10)] := by
  show natCharsAux (n + 1) n = _
  simp only [natCharsAux]
  by_cases h : n < 10
  · simp [h]
  · simp only [if_neg h]
    rw [natCharsAux_fuel (n / 10) n (n / 10 + 1) (by omega) (by omega)]
    rfl

theorem natChars_ne_nil (n : Nat) : natChars n ≠ [] := by
  rw [natChars_unfold]
  by_cases h : n < 10 <;> simp [h]

theorem natChars_digits (n : Nat) : ∀ c ∈ natChars n, isDigitC c = true := by
  induction n using Nat.strongRecOn with
  | _ n ih =>
    rw [natChars_unfold]
    by_cases h : n < 10
    · simp only [if_pos h, List.mem_singleton]
      rintro c rfl
      exact isDigitC_digitC n h
    · simp only [if_neg h, List.mem_append, List.mem_singleton]
      rintro c (hc | rfl)
      · exact ih (n / 10) (by omega) c hc
      · exact isDigitC_digitC _ (by omega)

theorem natChars_head_ne_zero (n : Nat) : n ≠ 0 → ∀ c t, natChars n = c :: t → ¬(c = '0') := by
  induction n using Nat.strongRecOn with
  | _ n ih =>
    intro hn c t hct
    rw [natChars_unfold] at hct
    by_cases h : n < 10
    · rw [if_pos h] at hct
      obtain ⟨rfl, rfl⟩ : c = digitC n ∧ t = [] := by
        simpa using hct.symm
      exact digitC_ne_zeroC hn h
    · rw [if_neg h] at hct
      obtain ⟨c0, t0, h0⟩ : ∃ c0 t0, natChars (n / 10) = c0 :: t0 := by
        cases hnc : natChars (n / 10) with
        | nil => exact absurd hnc (natChars_ne_nil _)
        | cons c0 t0 => exact ⟨c0, t0, rfl⟩
      rw [h0] at hct
      simp only [List.cons_append, List.cons.injEq] at hct
      rw [← hct.1]
      exact ih (n / 10) (by omega) (by omega) c0 t0 h0

theorem zeroLeadOk_natChars (n : Nat) : zeroLeadOk (natChars n) = true := by
  rw [natChars_unfold]
  by_cases h : n < 10
  · simp [h, zeroLeadOk]
  · rw [if_neg h]
    obtain ⟨c0, t0, h0⟩ : ∃ c0 t0, natChars (n / 10) = c0 :: t0 := by
      cases hnc : natChars (n / 10) with
      | nil => exact absurd hnc (natChars_ne_nil _)
      | cons c0 t0 => exact ⟨c0, t0, rfl⟩
    have hc0 : ¬(c0 = '0') :=
      natChars_head_ne_zero (n / 10) (by omega) c0 t0 h0
    rw [h0]
    cases t0 with
    | nil => simp [zeroLeadOk, hc0]
    | cons a b => simp [zeroLeadOk, hc0]

theorem digitsToNat_append_digit (l : List Char) (d : Char) :
    digitsToNat (l ++ [d]) = 10 * digitsToNat l + (d.toNat - 48) := by
  simp [digitsToNat, List.foldl_append]

theorem digitsToNat_natChars (n : Nat) : digitsToNat (natChars n) = n := by
  induction n using Nat.strongRecOn with
  | _ n ih =>
    rw [natChars_unfold]
    by_cases h : n < 10
    · simp [if_pos h, digitsToNat, digitC_toNat n h]
    · rw [if_neg h, digitsToNat_append_digit, ih (n / 10) (by omega),
        digitC_toNat _ (by omega)]
      omega

/-! ### The digit-run reader -/

theorem takeDigits_stop (cs : List Char) (h : numSafe cs = true) : takeDigits cs = ([], cs) := by
  cases cs with
  | nil => rfl
  | cons c t =>
      simp only [numSafe, Bool.not_eq_true'] at h
      simp [takeDigits, h]

theorem takeDigits_run (ds : List Char) (hds : ∀ c ∈ ds, isDigitC c = true) (r : List Char)
    (hr : numSafe r = true) : takeDigits (ds ++ r) = (ds, r) := by
  induction ds with
  | nil => simpa using takeDigits_stop r hr
  | cons c t ih =>
      have hc : isDigitC c = true := hds c (by simp)
      have ht := ih (fun x hx => hds x (by simp [hx]))
      simp [takeDigits, hc, ht]

theorem digit_ne_minus {c : Char} (h : isDigitC c = true) : ¬(c = '-') := by
  intro he
  subst he
  exact absurd h (by decide)

theorem parseNum_serInt (i : Int) (t : List Char) (ht : numSafe t = true) :
    parseNum (serInt i ++ t) = some (.num i, t) := by
  by_cases hneg : i < 0
  · have harg : serInt i ++ t = '-' :: (natChars i.natAbs ++ t) := by
      simp [serInt, hneg]
    rw [harg]
    simp only [parseNum, if_pos rfl]
    rw [takeDigits_run _ (natChars_digits _) t ht]
    obtain ⟨c, cs, heq⟩ : ∃ c cs, natChars i.natAbs = c :: cs := by
      cases h : natChars i.natAbs with
      | nil => exact absurd h (natChars_ne_nil _)
      | cons c cs => exact ⟨c, cs, rfl⟩
    have hok : zeroLeadOk (natChars i.natAbs) = true := zeroLeadOk_natChars _
    have hval : digitsToNat (natChars i.natAbs) = i.natAbs := digitsToNat_natChars _
    rw [heq] at hok hval ⊢
    simp only [hok, if_true]
    have : -((digitsToNat (c :: cs) : Nat) : Int) = i := by
      rw [hval]
      omega
    rw [this]
  · have harg : serInt i ++ t = natChars i.natAbs ++ t := by
      simp [serInt, hneg]
    obtain ⟨c, cs, heq⟩ : ∃ c cs, natChars i.natAbs = c :: cs := by
      cases h : natChars i.natAbs with
      | nil => exact absurd h (natChars_ne_nil _)
      | cons c cs => exact ⟨c, cs, rfl⟩
    have hcdig : isDigitC c = true := natChars_digits _ c (by rw [heq]; simp)
    have harg2 : serInt i ++ t = c :: (cs ++ t) := by rw [harg, heq]; rfl
    rw [harg2]
    simp only [parseNum, if_neg (digit_ne_minus hcdig)]
    have hrun : takeDigits (c :: (cs ++ t)) = (c :: cs, t) := by
      have := takeDigits_run (natChars i.natAbs) (natChars_digits _) t ht
      rw [heq] at this
      simpa using this
    rw [hrun]
    have hok : zeroLeadOk (natChars i.natAbs) = true := zeroLeadOk_natChars _
    have hval : digitsToNat (natChars i.natAbs) = i.natAbs := digitsToNat_natChars _
    rw [heq] at hok hval
    simp only [hok, if_true]
    have : ((digitsToNat (c :: cs) : Nat) : Int) = i := by
      rw [hval]
      omega
    rw [this]


/-! ### Hexadecimal escapes -/

theorem hexVal_hexC (n : Nat) (h : n < 16) : hexVal (hexC n) = some n := by
  interval_cases n <;> decide

theorem hex4_escU_arith (n : Nat) (h : n < 65536) :
    hex4 (hexC (n / 4096 % 16)) (hexC (n / 256 % 16)) (hexC (n / 16 % 16)) (hexC (n % 16)) =
      some n := by
  have h1 := hexVal_hexC (n / 4096 % 16) (by omega)
  have h2 := hexVal_hexC (n / 256 % 16) (by omega)
  have h3 := hexVal_hexC (n / 16 % 16) (by omega)
  have h4 := hexVal_hexC (n % 16) (by omega)
  simp only [hex4, h1, h2, h3, h4]
  congr 1
  omega

/-- One-step unfolding of the string reader at successor fuel on a quote. -/
theorem psa_step_quote (f : Nat) (r : List Char) :
    parseStrAux (f + 1) (quoteC :: r) = some ([], r) := rfl

/-- One-step unfolding on an arbitrary head character. -/
theorem psa_step_plain (f : Nat) {c : Char} (hq : ¬(c = quoteC)) (hb : ¬(c = bslashC))
    (hc : ¬(c.toNat < 32)) (r : List Char) :
    parseStrAux (f + 1) (c :: r) =
      match parseStrAux f r with
      | some p => some (c :: p.1, p.2)
      | none => none := by
  have step : parseStrAux (f + 1) (c :: r) =
      if c = quoteC then some ([], r)
      else if c = bslashC then
        (match r with
         | [] => none
         | e :: r1 =>
           if e = 'u' then
             match r1 with
             | a :: b :: c2 :: d :: r2 =>
                 match hex4 a b c2 d with
                 | none => none
                 | some n =>
                   if n < 55296 ∨ 57343 < n then
                     match parseStrAux f r2 with
                     | some p => some (Char.ofNat n :: p.1, p.2)
                     | none => none
                   else if n < 56320 then
                     match r2 with
                     | e2 :: u2 :: a2 :: b2 :: c3 :: d2 :: r3 =>
                         if e2 = bslashC ∧ u2 = 'u' then
                           match hex4 a2 b2 c3 d2 with
                           | none => none
                           | some m =>
                               if 56320 ≤ m ∧ m ≤ 57343 then
                                 match parseStrAux f r3 with
                                 | some p =>
                                     some (Char.ofNat (65536 + (n - 55296) * 1024 + (m - 56320)) :: p.1, p.2)
                                 | none => none
                               else none
                         else none
                     | _ => none
                   else none
             | _ => none
           else
             match simpleUnescape e with
             | some ch =>
                 match parseStrAux f r1 with
                 | some p => some (ch :: p.1, p.2)
                 | none => none
             | none => none)
      else if c.toNat < 32 then none
      else
        match parseStrAux f r with
        | some p => some (c :: p.1, p.2)
        | none => none := rfl
  rw [step, if_neg hq, if_neg hb, if_neg hc]

/-- One-step unfolding on a backslash escape head. -/
theorem psa_step_esc (f : Nat) (e : Char) (r1 : List Char) :
    parseStrAux (f + 1) (bslashC :: e :: r1) =
      if e = 'u' then
        (match r1 with
         | a :: b :: c2 :: d :: r2 =>
             match hex4 a b c2 d with
             | none => none
             | some n =>
               if n < 55296 ∨ 57343 < n then
                 match parseStrAux f r2 with
                 | some p => some (Char.ofNat n :: p.1, p.2)
                 | none => none
               else if n < 56320 then
                 match r2 with
                 | e2 :: u2 :: a2 :: b2 :: c3 :: d2 :: r3 =>
                     if e2 = bslashC ∧ u2 = 'u' then
                       match hex4 a2 b2 c3 d2 with
                       | none => none
                       | some m =>
                           if 56320 ≤ m ∧ m ≤ 57343 then
                             match parseStrAux f r3 with
                             | some p =>
                                 some (Char.ofNat (65536 + (n - 55296) * 1024 + (m - 56320)) :: p.1, p.2)
                             | none => none
                           else none
                     else none
                 | _ => none
               else none
         | _ => none)
      else
        match simpleUnescape e with
        | some ch =>
            match parseStrAux f r1 with
            | some p => some (ch :: p.1, p.2)
            | none => none
        | none => none := rfl

/-- One-step unfolding on a `\u` escape with the four digits exposed. -/
theorem psa_step_u (f : Nat) (a b c2 d : Char) (r2 : List Char) :
    parseStrAux (f + 1) (bslashC :: 'u' :: a :: b :: c2 :: d :: r2) =
      match hex4 a b c2 d with
      | none => none
      | some n =>
        if n < 55296 ∨ 57343 < n then
          match parseStrAux f r2 with
          | some p => some (Char.ofNat n :: p.1, p.2)
          | none => none
        else if n < 56320 then
          (match r2 with
           | e2 :: u2 :: a2 :: b2 :: c3 :: d2 :: r3 =>
               if e2 = bslashC ∧ u2 = 'u' then
                 match hex4 a2 b2 c3 d2 with
                 | none => none
                 | some m =>
                     if 56320 ≤ m ∧ m ≤ 57343 then
                       match parseStrAux f r3 with
                       | some p =>
                           some (Char.ofNat (65536 + (n - 55296) * 1024 + (m - 56320)) :: p.1, p.2)
                       | none => none
                     else none
               else none
           | _ => none)
        else none := rfl

theorem psa_escU_nonsurrogate (f : Nat) (n : Nat) (hlt : n < 65536)
    (hns : n < 55296 ∨ 57343 < n) (t : List Char) :
    parseStrAux (f + 1) (escU n ++ t) =
      match parseStrAux f t with
      | some p => some (Char.ofNat n :: p.1, p.2)
      | none => none := by
  simp only [escU, List.cons_append, List.nil_append]
  rw [psa_step_u]
  simp only [hex4_escU_arith n hlt]
  rw [if_pos hns]

theorem psa_escU_pair (f : Nat) (n : Nat) (hlo : 65536 ≤ n) (hhi : n < 1114112)
    (t : List Char) :
    parseStrAux (f + 1) ((escU (55296 + (n - 65536) / 1024) ++ escU (56320 + (n - 65536) % 1024)) ++ t) =
      match parseStrAux f t with
      | some p => some (Char.ofNat n :: p.1, p.2)
      | none => none := by
  simp only [escU, List.cons_append, List.nil_append, List.append_assoc]
  rw [psa_step_u]
  simp only [hex4_escU_arith (55296 + (n - 65536) / 1024) (by omega)]
  rw [if_neg (by omega : ¬(55296 + (n - 65536) / 1024 < 55296 ∨ 57343 < 55296 + (n - 65536) / 1024)),
    if_pos (by omega : 55296 + (n - 65536) / 1024 < 56320)]
  simp only [if_pos (⟨rfl, rfl⟩ : bslashC = bslashC ∧ ('u' : Char) = 'u'),
    hex4_escU_arith (56320 + (n - 65536) % 1024) (by omega)]
  rw [if_pos (by omega : 56320 ≤ 56320 + (n - 65536) % 1024 ∧ 56320 + (n - 65536) % 1024 ≤ 57343)]
  have harith : 65536 + (55296 + (n - 65536) / 1024 - 55296) * 1024 +
      (56320 + (n - 65536) % 1024 - 56320) = n := by omega
  rw [harith]
  simp

theorem psa_escChar (f : Nat) (c : Char) (t : List Char) :
    parseStrAux (f + 1) (escChar c ++ t) =
      match parseStrAux f t with
      | some p => some (c :: p.1, p.2)
      | none => none := by
  by_cases h1 : c = quoteC
  · subst h1
    have hesc : escChar quoteC ++ t = bslashC :: quoteC :: t := rfl
    rw [hesc, psa_step_esc, if_neg (by decide : ¬(quoteC = 'u')),
      show simpleUnescape quoteC = some quoteC from rfl]
  · by_cases h2 : c = bslashC
    · subst h2
      have hesc : escChar bslashC ++ t = bslashC :: bslashC :: t := rfl
      rw [hesc, psa_step_esc, if_neg (by decide : ¬(bslashC = 'u')),
        show simpleUnescape bslashC = some bslashC from rfl]
    · by_cases h3 : c = Char.ofNat 8
      · subst h3
        have hesc : escChar (Char.ofNat 8) ++ t = bslashC :: 'b' :: t := by
          rw [show escChar (Char.ofNat 8) = [bslashC, 'b'] from rfl]
          rfl
        rw [hesc, psa_step_esc, if_neg (by decide : ¬('b' = 'u')),
          show simpleUnescape 'b' = some (Char.ofNat 8) from rfl]
      · by_cases h4 : c = Char.ofNat 12
        · subst h4
          have hesc : escChar (Char.ofNat 12) ++ t = bslashC :: 'f' :: t := by
            rw [show escChar (Char.ofNat 12) = [bslashC, 'f'] from rfl]
            rfl
          rw [hesc, psa_step_esc, if_neg (by decide : ¬('f' = 'u')),
            show simpleUnescape 'f' = some (Char.ofNat 12) from rfl]
        · by_cases h5 : c = '\n'
          · subst h5
            have hesc : escChar '\n' ++ t = bslashC :: 'n' :: t := by
              rw [show escChar '\n' = [bslashC, 'n'] from rfl]
              rfl
            rw [hesc, psa_step_esc, if_neg (by decide : ¬('n' = 'u')),
              show simpleUnescape 'n' = some '\n' from rfl]
          · by_cases h6 : c = '\r'
            · subst h6
              have hesc : escChar '\r' ++ t = bslashC :: 'r' :: t := by
                rw [show escChar '\r' = [bslashC, 'r'] from rfl]
                rfl
              rw [hesc, psa_step_esc, if_neg (by decide : ¬('r' = 'u')),
                show simpleUnescape 'r' = some '\r' from rfl]
            · by_cases h7 : c = '\t'
              · subst h7
                have hesc : escChar '\t' ++ t = bslashC :: 't' :: t := by
                  rw [show escChar '\t' = [bslashC, 't'] from rfl]
                  rfl
                rw [hesc, psa_step_esc, if_neg (by decide : ¬('t' = 'u')),
                  show simpleUnescape 't' = some '\t' from rfl]
              · have hne : escChar c =
                    if c.toNat < 32 then escU c.toNat
                    else if c.toNat ≤ 126 then [c]
                    else if c.toNat < 65536 then escU c.toNat
                    else escU (55296 + (c.toNat - 65536) / 1024) ++
                      escU (56320 + (c.toNat - 65536) % 1024) := by
                  simp only [escChar, if_neg h1, if_neg h2, if_neg h3, if_neg h4, if_neg h5,
                    if_neg h6, if_neg h7]
                by_cases h8 : c.toNat < 32
                · rw [hne, if_pos h8, psa_escU_nonsurrogate f c.toNat (by omega) (by omega) t,
                    Char.ofNat_toNat]
                · by_cases h9 : c.toNat ≤ 126
                  · rw [hne, if_neg h8, if_pos h9]
                    exact psa_step_plain f h1 h2 h8 t
                  · by_cases h10 : c.toNat < 65536
                    · have hv : c.toNat < 55296 ∨ 57343 < c.toNat := by
                        rcases char_valid_toNat c with h | h
                        · exact Or.inl h
                        · exact Or.inr h.1
                      rw [hne, if_neg h8, if_neg h9, if_pos h10,
                        psa_escU_nonsurrogate f c.toNat h10 hv t, Char.ofNat_toNat]
                    · have hv : c.toNat < 1114112 := by
                        rcases char_valid_toNat c with h | h
                        · omega
                        · exact h.2
                      rw [hne, if_neg h8, if_neg h9, if_neg h10,
                        psa_escU_pair f c.toNat (by omega) hv t, Char.ofNat_toNat]

theorem escChar_length_pos (c : Char) : 1 ≤ (escChar c).length := by
  simp only [escChar]
  repeat' split
  all_goals simp [escU]

theorem serStrBody_length (s : List Char) : s.length ≤ (serStrBody s).length := by
  induction s with
  | nil => simp [serStrBody]
  | cons c cs ih =>
      have := escChar_length_pos c
      simp only [serStrBody, List.length_append, List.length_cons]
      omega

theorem parseStrAux_ser (s : List Char) : ∀ (f : Nat), s.length < f → ∀ (t : List Char),
    parseStrAux f (serStrBody s ++ (quoteC :: t)) = some (s, t) := by
  induction s with
  | nil =>
      intro f hf t
      match f, hf with
      | f + 1, _ =>
        simp only [serStrBody, List.nil_append]
        exact psa_step_quote f t
  | cons c cs ih =>
      intro f hf t
      match f, hf with
      | f + 1, hf =>
        rw [serStrBody, List.append_assoc, psa_escChar,
          ih f (by simpa using Nat.lt_of_succ_lt_succ hf) t]

theorem parseStr_ser (s : List Char) (t : List Char) :
    parseStr (serStrBody s ++ (quoteC :: t)) = some (s, t) := by
  have hlen := serStrBody_length s
  exact parseStrAux_ser s _ (by simp [List.length_append]; omega) t


/-! ### Whitespace and separators -/

theorem skipWs_cons_not {c : Char} (h : isWsC c = false) (t : List Char) :
    skipWs (c :: t) = c :: t := by
  simp [skipWs, h]

theorem skipWs_allWs (p : List Char) (hp : allWs p = true) (t : List Char) :
    skipWs (p ++ t) = skipWs t := by
  induction p with
  | nil => simp
  | cons c q ih =>
      simp only [allWs, List.all_cons, Bool.and_eq_true] at hp
      simp only [List.cons_append, skipWs, hp.1, if_true]
      exact ih hp.2

theorem itemSepL_shape (sp : Bool) :
    ∃ pad, itemSepL sp = ',' :: pad ∧ allWs pad = true := by
  cases sp
  · exact ⟨[' '], rfl, by decide⟩
  · exact ⟨[], rfl, by decide⟩

theorem kvSepL_shape (sp : Bool) :
    ∃ pad, kvSepL sp = ':' :: pad ∧ allWs pad = true := by
  cases sp
  · exact ⟨[' '], rfl, by decide⟩
  · exact ⟨[], rfl, by decide⟩

/-! ### Dict operations -/

theorem strNodup_iff (l : List String) : strNodup l = true ↔ l.Nodup := by
  induction l with
  | nil => simp [strNodup]
  | cons x t ih =>
      simp only [strNodup, Bool.and_eq_true, Bool.not_eq_true', List.nodup_cons, ih]
      constructor
      · rintro ⟨h1, h2⟩
        refine ⟨fun hm => ?_, h2⟩
        rw [show t.contains x = true by simpa [List.contains] using hm] at h1
        exact Bool.noConfusion h1
      · rintro ⟨h1, h2⟩
        refine ⟨?_, h2⟩
        by_cases hc : t.contains x = true
        · exact absurd (by simpa [List.contains] using hc) h1
        · simpa using hc

theorem keysOf_append (a b : List (String × Json)) :
    keysOf (a ++ b) = keysOf a ++ keysOf b := List.map_append _ a b

theorem dictGet_dictSet_self (l : List (String × Json)) (k : String) (v : Json) :
    dictGet (dictSet l k v) k = some v := by
  induction l with
  | nil => simp [dictSet, dictGet]
  | cons kv t ih =>
      obtain ⟨k1, v1⟩ := kv
      by_cases h : k1 = k
      · simp [dictSet, dictGet, h]
      · simp [dictSet, dictGet, h, ih]

theorem dictGet_dictSet_ne (l : List (String × Json)) (k : String) (v : Json) (k1 : String)
    (h : ¬(k = k1)) : dictGet (dictSet l k v) k1 = dictGet l k1 := by
  induction l with
  | nil => simp [dictSet, dictGet, h]
  | cons kv t ih =>
      obtain ⟨k2, v2⟩ := kv
      by_cases h2 : k2 = k
      · subst h2
        simp [dictSet, dictGet, h]
      · simp [dictSet, dictGet, h2, ih]

theorem dictSet_fresh (l : List (String × Json)) (k : String) (v : Json)
    (h : ¬(k ∈ keysOf l)) : dictSet l k v = l ++ [(k, v)] := by
  induction l with
  | nil => rfl
  | cons kv t ih =>
      obtain ⟨k1, v1⟩ := kv
      have h1 : ¬(k1 = k) := by
        intro he
        exact h (by simp [keysOf, he])
      have h2 : ¬(k ∈ keysOf t) := by
        intro hm
        exact h (by simp [keysOf] at hm ⊢; exact Or.inr hm)
      simp [dictSet, h1, ih h2]

theorem foldl_dictSet_fresh : ∀ (l acc : List (String × Json)),
    (∀ kv ∈ l, ¬(kv.1 ∈ keysOf acc)) → (keysOf l).Nodup →
    List.foldl (fun a kv => dictSet a kv.1 kv.2) acc l = acc ++ l := by
  intro l
  induction l with
  | nil => intro acc _ _; simp
  | cons kv t ih =>
      intro acc hfresh hnd
      obtain ⟨k, v⟩ := kv
      have hk : ¬(k ∈ keysOf acc) := hfresh (k, v) (by simp)
      have hndt : (keysOf t).Nodup := by
        simp only [keysOf, List.map_cons, List.nodup_cons] at hnd
        exact hnd.2
      have hknott : ¬(k ∈ keysOf t) := by
        simp only [keysOf, List.map_cons, List.nodup_cons] at hnd
        exact hnd.1
      have hfresh2 : ∀ kv2 ∈ t, ¬(kv2.1 ∈ keysOf (acc ++ [(k, v)])) := by
        intro kv2 hm
        rw [keysOf_append]
        simp only [List.mem_append]
        rintro (hin | hin)
        · exact hfresh kv2 (by simp [hm]) hin
        · have : kv2.1 = k := by simpa [keysOf] using hin
          exact hknott (this ▸ (by simp [keysOf]; exact ⟨kv2.2, hm⟩))
      calc List.foldl (fun a kv => dictSet a kv.1 kv.2) acc ((k, v) :: t)
          = List.foldl (fun a kv => dictSet a kv.1 kv.2) (dictSet acc k v) t := rfl
        _ = List.foldl (fun a kv => dictSet a kv.1 kv.2) (acc ++ [(k, v)]) t := by
            rw [dictSet_fresh acc k v hk]
        _ = (acc ++ [(k, v)]) ++ t := ih (acc ++ [(k, v)]) hfresh2 hndt
        _ = acc ++ ((k, v) :: t) := by simp

theorem buildDict_nodup_id (l : List (String × Json)) (h : (keysOf l).Nodup) :
    buildDict l = l := by
  have := foldl_dictSet_fresh l [] (by simp [keysOf]) h
  simpa [buildDict] using this

theorem keysOf_dictSet_mem (l : List (String × Json)) (k : String) (v : Json) :
    ∀ x ∈ keysOf (dictSet l k v), x ∈ keysOf l ∨ x = k := by
  induction l with
  | nil => simp [dictSet, keysOf]
  | cons kv t ih =>
      obtain ⟨k1, v1⟩ := kv
      by_cases h : k1 = k
      · subst h
        intro x hx
        have he : dictSet ((k1, v1) :: t) k1 v = (k1, v) :: t := by
          simp [dictSet]
        rw [he] at hx
        refine Or.inl ?_
        simp only [keysOf, List.map_cons, List.mem_cons] at hx ⊢
        exact hx
      · intro x hx
        simp only [dictSet, if_neg h, keysOf, List.map_cons, List.mem_cons] at hx
        rcases hx with hx | hx
        · exact Or.inl (by simp [keysOf, hx])
        · rcases ih x hx with hin | hin
          · exact Or.inl (by simp [keysOf] at hin ⊢; tauto)
          · exact Or.inr hin

theorem keysOf_dictSet_nodup (l : List (String × Json)) (k : String) (v : Json)
    (h : (keysOf l).Nodup) : (keysOf (dictSet l k v)).Nodup := by
  induction l with
  | nil => simp [dictSet, keysOf]
  | cons kv t ih =>
      obtain ⟨k1, v1⟩ := kv
      simp only [keysOf, List.map_cons, List.nodup_cons] at h
      by_cases he : k1 = k
      · simp only [dictSet, if_pos he, keysOf, List.map_cons, List.nodup_cons]
        exact h
      · simp only [dictSet, if_neg he, keysOf, List.map_cons, List.nodup_cons]
        refine ⟨?_, ih h.2⟩
        intro hm
        rcases keysOf_dictSet_mem t k v k1 hm with hin | hin
        · exact h.1 hin
        · exact he hin

theorem buildDict_keys_nodup (l : List (String × Json)) :
    (keysOf (buildDict l)).Nodup := by
  suffices h : ∀ acc : List (String × Json), (keysOf acc).Nodup →
      (keysOf (List.foldl (fun a kv => dictSet a kv.1 kv.2) acc l)).Nodup by
    exact h [] (by simp [keysOf])
  induction l with
  | nil => intro acc hacc; simpa using hacc
  | cons kv t ih =>
      intro acc hacc
      exact ih (dictSet acc kv.1 kv.2) (keysOf_dictSet_nodup acc kv.1 kv.2 hacc)

/-! ### Well-formedness -/

theorem wfJM_iff (l : List (String × Json)) :
    wfJM l = true ↔ ∀ kv ∈ l, wfJ kv.2 = true := by
  induction l with
  | nil => simp [wfJM]
  | cons kv t ih =>
      obtain ⟨k, v⟩ := kv
      simp [wfJM, ih, Bool.and_eq_true]

theorem wfJL_iff (l : List Json) : wfJL l = true ↔ ∀ x ∈ l, wfJ x = true := by
  induction l with
  | nil => simp [wfJL]
  | cons x t ih => simp [wfJL, ih, Bool.and_eq_true]

theorem wfJM_dictSet (l : List (String × Json)) (k : String) (v : Json)
    (hl : wfJM l = true) (hv : wfJ v = true) : wfJM (dictSet l k v) = true := by
  rw [wfJM_iff] at hl ⊢
  induction l with
  | nil => simpa [dictSet] using hv
  | cons kv t ih =>
      obtain ⟨k1, v1⟩ := kv
      by_cases h : k1 = k
      · simp only [dictSet, if_pos h]
        intro kv2 hm
        rcases List.mem_cons.mp hm with he | hm2
        · subst he; exact hv
        · exact hl kv2 (by simp [hm2])
      · simp only [dictSet, if_neg h]
        intro kv2 hm
        rcases List.mem_cons.mp hm with he | hm2
        · subst he; exact hl (k1, v1) (by simp)
        · exact ih (fun x hx => hl x (by simp [hx])) kv2 hm2

theorem dictGet_wf (l : List (String × Json)) (k : String) (v : Json)
    (hl : wfJM l = true) (h : dictGet l k = some v) : wfJ v = true := by
  induction l with
  | nil => exact absurd h (by simp [dictGet])
  | cons kv t ih =>
      obtain ⟨k1, v1⟩ := kv
      rw [wfJM_iff] at hl
      by_cases he : k1 = k
      · rw [dictGet, if_pos he] at h
        obtain rfl : v1 = v := by simpa using h
        exact hl (k1, v1) (by simp)
      · rw [dictGet, if_neg he] at h
        exact ih (by rw [wfJM_iff]; exact fun x hx => hl x (by simp [hx])) h

theorem wfJ_formatValue (v : Json) (hv : wfJ v = true) : wfJ (formatValue v) = true := by
  cases v
  · exact hv
  · exact hv
  · exact hv
  · exact hv
  · rfl
  · rfl

theorem wfJM_map_formatValue (l : List (String × Json)) (hl : wfJM l = true) :
    wfJM (l.map (fun kv => (kv.1, formatValue kv.2))) = true := by
  rw [wfJM_iff] at hl ⊢
  intro kv hm
  obtain ⟨kv0, hkv0, rfl⟩ := List.mem_map.mp hm
  exact wfJ_formatValue kv0.2 (hl kv0 hkv0)


/-! ### Serializer head shapes -/

theorem serInt_head (i : Int) :
    ∃ c t, serInt i = c :: t ∧ (isDigitC c = true ∨ c = '-') := by
  by_cases h : i < 0
  · exact ⟨'-', natChars i.natAbs, by simp [serInt, h], Or.inr rfl⟩
  · obtain ⟨c, t, heq⟩ : ∃ c t, natChars i.natAbs = c :: t := by
      cases hnc : natChars i.natAbs with
      | nil => exact absurd hnc (natChars_ne_nil _)
      | cons c t => exact ⟨c, t, rfl⟩
    exact ⟨c, t, by simp [serInt, h, heq],
      Or.inl (natChars_digits _ c (by rw [heq]; simp))⟩

theorem nondigit_char_facts {c : Char} (h : isDigitC c = true ∨ c = '-') :
    isWsC c = false ∧ ¬(c = ']') ∧ ¬(c = rbraceC) ∧ ¬(c = ',') ∧ ¬(c = 'n') ∧ ¬(c = 't') ∧
      ¬(c = 'f') ∧ ¬(c = '[') ∧ ¬(c = quoteC) ∧ ¬(c = lbraceC) ∧ ¬(c = ':') := by
  have h1 : 45 ≤ c.toNat ∧ c.toNat ≤ 57 := by
    rcases h with h | h
    · have := isDigitC_toNat h
      omega
    · subst h
      exact ⟨by decide, by decide⟩
  obtain ⟨ha, hb⟩ := h1
  refine ⟨?_, ?_, ?_, ?_, ?_, ?_, ?_, ?_, ?_, ?_, ?_⟩
  · simp only [isWsC, Bool.or_eq_false_iff, decide_eq_false_iff_not]
    refine ⟨⟨⟨?_, ?_⟩, ?_⟩, ?_⟩ <;> (intro he; subst he; revert ha hb; decide)
  all_goals (intro he; subst he; revert ha hb; decide)

theorem serV_head (sp : Bool) (j : Json) :
    ∃ c t, serV sp j = c :: t ∧ isWsC c = false ∧ ¬(c = ']') ∧ ¬(c = rbraceC) ∧ ¬(c = ',') := by
  cases j with
  | null => exact ⟨'n', _, rfl, by decide, by decide, by decide, by decide⟩
  | bool b =>
      cases b with
      | false => exact ⟨'f', _, rfl, by decide, by decide, by decide, by decide⟩
      | true => exact ⟨'t', _, rfl, by decide, by decide, by decide, by decide⟩
  | num i =>
      obtain ⟨c, t, heq, hdig⟩ := serInt_head i
      obtain ⟨h1, h2, h3, h4, _⟩ := nondigit_char_facts hdig
      exact ⟨c, t, by rw [show serV sp (.num i) = serInt i from rfl, heq], h1, h2, h3, h4⟩
  | str s2 => exact ⟨quoteC, _, rfl, by decide, by decide, by decide, by decide⟩
  | arr xs => exact ⟨'[', _, rfl, by decide, by decide, by decide, by decide⟩
  | obj kvs => exact ⟨lbraceC, _, rfl, by decide, by decide, by decide, by decide⟩

theorem serItems_cons_shape (sp : Bool) (x : Json) (xs : List Json) :
    ∃ z, serItems sp (x :: xs) = serV sp x ++ z := by
  cases xs with
  | nil => exact ⟨[], by simp [serItems]⟩
  | cons y ys => exact ⟨itemSepL sp ++ serItems sp (y :: ys), rfl⟩

theorem serItems_head (sp : Bool) (x : Json) (xs : List Json) :
    ∃ c t, serItems sp (x :: xs) = c :: t ∧ isWsC c = false ∧ ¬(c = ']') ∧ ¬(c = rbraceC) ∧
      ¬(c = ',') := by
  obtain ⟨c, t, hceq, h1, h2, h3, h4⟩ := serV_head sp x
  obtain ⟨z, hz⟩ := serItems_cons_shape sp x xs
  exact ⟨c, t ++ z, by rw [hz, hceq]; rfl, h1, h2, h3, h4⟩

theorem skipWs_serV (sp : Bool) (j : Json) (x : List Char) :
    skipWs (serV sp j ++ x) = serV sp j ++ x := by
  obtain ⟨c, t, heq, hws, _, _, _⟩ := serV_head sp j
  rw [heq, List.cons_append, skipWs_cons_not hws]

/-! ### One-step parser unfoldings -/

theorem parseJv_step (f : Nat) (c : Char) (r : List Char) :
    parseJv (f + 1) (c :: r) =
      (if c = 'n' then
        match r with
        | 'u' :: 'l' :: 'l' :: r2 => some (.null, r2)
        | _ => none
      else if c = 't' then
        match r with
        | 'r' :: 'u' :: 'e' :: r2 => some (.bool true, r2)
        | _ => none
      else if c = 'f' then
        match r with
        | 'a' :: 'l' :: 's' :: 'e' :: r2 => some (.bool false, r2)
        | _ => none
      else if c = '[' then
        match skipWs r with
        | [] => none
        | c2 :: r2 =>
            if c2 = ']' then some (.arr [], r2)
            else
              match parseJitems f (c2 :: r2) with
              | some (vs, r3) => some (.arr vs, r3)
              | none => none
      else if c = quoteC then
        match parseStr r with
        | some (s, r2) => some (.str (String.mk s), r2)
        | none => none
      else if c = lbraceC then
        match skipWs r with
        | [] => none
        | c2 :: r2 =>
            if c2 = rbraceC then some (.obj [], r2)
            else
              match parseJmembers f (c2 :: r2) with
              | some (ms, r3) => some (.obj (buildDict ms), r3)
              | none => none
      else parseNum (c :: r)) := rfl

theorem parseJv_step_num (f : Nat) {c : Char} (r : List Char) (hn : ¬(c = 'n'))
    (ht : ¬(c = 't')) (hf : ¬(c = 'f')) (hbk : ¬(c = '[')) (hq : ¬(c = quoteC))
    (hbc : ¬(c = lbraceC)) :
    parseJv (f + 1) (c :: r) = parseNum (c :: r) := by
  rw [parseJv_step, if_neg hn, if_neg ht, if_neg hf, if_neg hbk, if_neg hq, if_neg hbc]

theorem parseJv_step_arr (f : Nat) (r : List Char) :
    parseJv (f + 1) ('[' :: r) =
      match skipWs r with
      | [] => none
      | c2 :: r2 =>
          if c2 = ']' then some (.arr [], r2)
          else
            match parseJitems f (c2 :: r2) with
            | some (vs, r3) => some (.arr vs, r3)
            | none => none := rfl

theorem parseJv_step_str (f : Nat) (r : List Char) :
    parseJv (f + 1) (quoteC :: r) =
      match parseStr r with
      | some (s, r2) => some (.str (String.mk s), r2)
      | none => none := rfl

theorem parseJv_step_obj (f : Nat) (r : List Char) :
    parseJv (f + 1) (lbraceC :: r) =
      match skipWs r with
      | [] => none
      | c2 :: r2 =>
          if c2 = rbraceC then some (.obj [], r2)
          else
            match parseJmembers f (c2 :: r2) with
            | some (ms, r3) => some (.obj (buildDict ms), r3)
            | none => none := rfl

theorem parseJitems_step (f : Nat) (cs : List Char) :
    parseJitems (f + 1) cs =
      match parseJv f (skipWs cs) with
      | none => none
      | some (v, r) =>
          match skipWs r with
          | [] => none
          | c :: r2 =>
              if c = ',' then
                match parseJitems f r2 with
                | some (vs, r3) => some (v :: vs, r3)
                | none => none
              else if c = ']' then some ([v], r2)
              else none := rfl

theorem parseJmembers_step (f : Nat) (cs : List Char) :
    parseJmembers (f + 1) cs =
      match skipWs cs with
      | [] => none
      | c :: r =>
          if c = quoteC then
            match parseStr r with
            | none => none
            | some (k, r1) =>
                match skipWs r1 with
                | [] => none
                | c1 :: r2 =>
                    if c1 = ':' then
                      match parseJv f (skipWs r2) with
                      | none => none
                      | some (v, r3) =>
                          match skipWs r3 with
                          | [] => none
                          | c2 :: r4 =>
                              if c2 = ',' then
                                match parseJmembers f r4 with
                                | some (ms, r5) => some ((String.mk k, v) :: ms, r5)
                                | none => none
                              else if c2 = rbraceC then some ([(String.mk k, v)], r4)
                              else none
                    else none
          else none := rfl

theorem if_self_eq {α : Sort _} (c : Char) (a b : α) : (if c = c then a else b) = a :=
  if_pos rfl

/-! ### The serializer-reader round trip -/

mutual
theorem rt_v : ∀ (j : Json) (sp : Bool) (fuel : Nat) (rest : List Char),
    wfJ j = true → (serV sp j).length < fuel → numSafe rest = true →
    parseJv fuel (serV sp j ++ rest) = some (j, rest)
  | .null, sp, fuel, rest, _, hfl, _ => by
      cases fuel with
      | zero => exact absurd hfl (Nat.not_lt_zero _)
      | succ f => rfl
  | .bool true, sp, fuel, rest, _, hfl, _ => by
      cases fuel with
      | zero => exact absurd hfl (Nat.not_lt_zero _)
      | succ f => rfl
  | .bool false, sp, fuel, rest, _, hfl, _ => by
      cases fuel with
      | zero => exact absurd hfl (Nat.not_lt_zero _)
      | succ f => rfl
  | .num i, sp, fuel, rest, _, hfl, hnum => by
      cases fuel with
      | zero => exact absurd hfl (Nat.not_lt_zero _)
      | succ f =>
          obtain ⟨c, t, heq, hdig⟩ := serInt_head i
          obtain ⟨_, _, _, _, hn, ht, hf2, hbk, hq, hbc, _⟩ := nondigit_char_facts hdig
          have harg : serInt i ++ rest = c :: (t ++ rest) := by rw [heq]; rfl
          show parseJv (f + 1) (serInt i ++ rest) = some (.num i, rest)
          rw [harg, parseJv_step_num f (t ++ rest) hn ht hf2 hbk hq hbc, ← harg]
          exact parseNum_serInt i rest hnum
  | .str s2, sp, fuel, rest, _, hfl, _ => by
      cases fuel with
      | zero => exact absurd hfl (Nat.not_lt_zero _)
      | succ f =>
          have harg : serV sp (.str s2) ++ rest =
              quoteC :: (serStrBody s2.data ++ (quoteC :: rest)) := by
            show (quoteC :: (serStrBody s2.data ++ [quoteC])) ++ rest = _
            simp
          rw [harg, parseJv_step_str]
          simp only [parseStr_ser]
  | .arr [], sp, fuel, rest, _, hfl, _ => by
      cases fuel with
      | zero => exact absurd hfl (Nat.not_lt_zero _)
      | succ f =>
          show parseJv (f + 1) ('[' :: (']' :: rest)) = some (.arr [], rest)
          rw [parseJv_step_arr, skipWs_cons_not (by decide : isWsC ']' = false)]
          rfl
  | .arr (x :: xs), sp, fuel, rest, hwf, hfl, _ => by
      cases fuel with
      | zero => exact absurd hfl (Nat.not_lt_zero _)
      | succ f =>
          have harg : serV sp (.arr (x :: xs)) ++ rest =
              '[' :: (serItems sp (x :: xs) ++ (']' :: rest)) := by
            show ('[' :: (serItems sp (x :: xs) ++ [']'])) ++ rest = _
            simp
          rw [harg, parseJv_step_arr]
          obtain ⟨c, t, hceq, hws, hbr, _, _⟩ := serItems_head sp x xs
          rw [show serItems sp (x :: xs) ++ (']' :: rest) = c :: (t ++ (']' :: rest)) by
            rw [hceq]; rfl]
          rw [skipWs_cons_not hws]
          simp only [if_neg hbr]
          rw [show c :: (t ++ (']' :: rest)) = serItems sp (x :: xs) ++ (']' :: rest) by
            rw [hceq]; rfl]
          have hlen : (serItems sp (x :: xs)).length + 1 < f := by
            have : (serV sp (.arr (x :: xs))).length = (serItems sp (x :: xs)).length + 2 := by
              show ('[' :: (serItems sp (x :: xs) ++ [']'])).length = _
              simp
            omega
          have hwl : wfJL (x :: xs) = true := hwf
          have := rt_items x xs sp f [] rest hwl (by decide) hlen
          rw [List.nil_append] at this
          rw [this]
  | .obj [], sp, fuel, rest, _, hfl, _ => by
      cases fuel with
      | zero => exact absurd hfl (Nat.not_lt_zero _)
      | succ f =>
          show parseJv (f + 1) (lbraceC :: (rbraceC :: rest)) = some (.obj [], rest)
          rw [parseJv_step_obj, skipWs_cons_not (by decide : isWsC rbraceC = false)]
          rfl
  | .obj ((k, v) :: ms), sp, fuel, rest, hwf, hfl, _ => by
      cases fuel with
      | zero => exact absurd hfl (Nat.not_lt_zero _)
      | succ f =>
          have harg : serV sp (.obj ((k, v) :: ms)) ++ rest =
              lbraceC :: (serMembers sp ((k, v) :: ms) ++ (rbraceC :: rest)) := by
            show (lbraceC :: (serMembers sp ((k, v) :: ms) ++ [rbraceC])) ++ rest = _
            simp
          rw [harg, parseJv_step_obj]
          have hsm : serMembers sp ((k, v) :: ms) ++ (rbraceC :: rest) =
              quoteC :: ((serStrBody k.data ++ [quoteC] ++
                (kvSepL sp ++ serV sp v) ++ serMembersTail sp ms) ++ (rbraceC :: rest)) := by
            cases ms with
            | nil =>
                show (serStr k ++ (kvSepL sp ++ serV sp v)) ++ (rbraceC :: rest) = _
                simp [serStr, serMembersTail]
            | cons m ms2 =>
                show (serStr k ++ (kvSepL sp ++ serV sp v) ++
                    (itemSepL sp ++ serMembers sp (m :: ms2))) ++ (rbraceC :: rest) = _
                simp [serStr, serMembersTail]
          rw [hsm, skipWs_cons_not (by decide : isWsC quoteC = false)]
          simp only [if_neg (by decide : ¬(quoteC = rbraceC))]
          rw [show quoteC :: ((serStrBody k.data ++ [quoteC] ++
              (kvSepL sp ++ serV sp v) ++ serMembersTail sp ms) ++ (rbraceC :: rest)) =
              serMembers sp ((k, v) :: ms) ++ (rbraceC :: rest) by rw [hsm]]
          have hlen : (serMembers sp ((k, v) :: ms)).length + 1 < f := by
            have : (serV sp (.obj ((k, v) :: ms))).length =
                (serMembers sp ((k, v) :: ms)).length + 2 := by
              show (lbraceC :: (serMembers sp ((k, v) :: ms) ++ [rbraceC])).length = _
              simp
            omega
          have hsplit : strNodup (keysOf ((k, v) :: ms)) = true ∧ wfJM ((k, v) :: ms) = true := by
            have h0 : wfJ (.obj ((k, v) :: ms)) = true := hwf
            rw [show wfJ (.obj ((k, v) :: ms)) =
              (strNodup (keysOf ((k, v) :: ms)) && wfJM ((k, v) :: ms)) from rfl] at h0
            simpa [Bool.and_eq_true] using h0
          have hnd : strNodup (keysOf ((k, v) :: ms)) = true := hsplit.1
          have hwm : wfJM ((k, v) :: ms) = true := hsplit.2
          have hmem := rt_members (k, v) ms sp f [] rest hwm (by decide) hlen
          rw [List.nil_append] at hmem
          rw [hmem]
          show some (Json.obj (buildDict ((k, v) :: ms)), rest) = some (Json.obj ((k, v) :: ms), rest)
          rw [buildDict_nodup_id ((k, v) :: ms) ((strNodup_iff _).mp hnd)]
  termination_by j => sizeOf j
  decreasing_by all_goals (simp_wf <;> (first | omega | (simp; omega) | simp))
theorem rt_items : ∀ (x : Json) (xs : List Json) (sp : Bool) (fuel : Nat) (pad rest : List Char),
    wfJL (x :: xs) = true → allWs pad = true →
    (serItems sp (x :: xs)).length + 1 < fuel →
    parseJitems fuel (pad ++ (serItems sp (x :: xs) ++ (']' :: rest))) = some (x :: xs, rest)
  | x, [], sp, fuel, pad, rest, hwf, hpad, hfl => by
      cases fuel with
      | zero => exact absurd hfl (Nat.not_lt_zero _)
      | succ f =>
          have hx : wfJ x = true := ((wfJL_iff _).mp hwf) x (by simp)
          have hser : serItems sp [x] = serV sp x := rfl
          rw [parseJitems_step, hser, skipWs_allWs pad hpad, skipWs_serV]
          have hfx : (serV sp x).length < f := by
            rw [hser] at hfl
            omega
          rw [rt_v x sp f (']' :: rest) hx hfx rfl]
          simp [skipWs_cons_not (show isWsC ']' = false by decide),
            if_neg (show ¬((']' : Char) = ',') by decide)]
  | x, y :: ys, sp, fuel, pad, rest, hwf, hpad, hfl => by
      cases fuel with
      | zero => exact absurd hfl (Nat.not_lt_zero _)
      | succ f =>
          have hx : wfJ x = true := ((wfJL_iff _).mp hwf) x (by simp)
          have hwl : wfJL (y :: ys) = true := by
            rw [wfJL_iff] at hwf ⊢
            exact fun a ha => hwf a (by simp [ha])
          obtain ⟨padI, hIeq, hIws⟩ := itemSepL_shape sp
          have hser : serItems sp (x :: y :: ys) ++ (']' :: rest) =
              serV sp x ++ (',' :: (padI ++ (serItems sp (y :: ys) ++ (']' :: rest)))) := by
            show (serV sp x ++ (itemSepL sp ++ serItems sp (y :: ys))) ++ (']' :: rest) = _
            rw [hIeq]
            simp
          rw [parseJitems_step, skipWs_allWs pad hpad, hser, skipWs_serV]
          have hfx : (serV sp x).length < f := by
            have : (serItems sp (x :: y :: ys)).length =
                (serV sp x).length + (itemSepL sp).length + (serItems sp (y :: ys)).length := by
              show (serV sp x ++ (itemSepL sp ++ serItems sp (y :: ys))).length = _
              simp
              omega
            omega
          rw [rt_v x sp f (',' :: (padI ++ (serItems sp (y :: ys) ++ (']' :: rest)))) hx hfx
            rfl]
          simp only [skipWs_cons_not (show isWsC ',' = false by decide), if_self_eq]
          have hfy : (serItems sp (y :: ys)).length + 1 < f := by
            have : (serItems sp (x :: y :: ys)).length =
                (serV sp x).length + (itemSepL sp).length + (serItems sp (y :: ys)).length := by
              show (serV sp x ++ (itemSepL sp ++ serItems sp (y :: ys))).length = _
              simp
              omega
            have hsvx : 1 ≤ (serV sp x).length := by
              obtain ⟨c, t, hceq, _⟩ := serV_head sp x
              rw [hceq]
              simp
            omega
          rw [rt_items y ys sp f padI rest hwl hIws hfy]
          rfl
  termination_by x xs => sizeOf x + sizeOf xs
  decreasing_by all_goals (simp_wf <;> (first | omega | (simp; omega) | simp))
theorem rt_members : ∀ (kv : String × Json) (ms : List (String × Json)) (sp : Bool) (fuel : Nat)
    (pad rest : List Char),
    wfJM (kv :: ms) = true → allWs pad = true →
    (serMembers sp (kv :: ms)).length + 1 < fuel →
    parseJmembers fuel (pad ++ (serMembers sp (kv :: ms) ++ (rbraceC :: rest))) =
      some (kv :: ms, rest)
  | (k, v), [], sp, fuel, pad, rest, hwf, hpad, hfl => by
      cases fuel with
      | zero => exact absurd hfl (Nat.not_lt_zero _)
      | succ f =>
          have hv : wfJ v = true := ((wfJM_iff _).mp hwf) (k, v) (by simp)
          obtain ⟨padK, hKeq, hKws⟩ := kvSepL_shape sp
          have hser : serMembers sp [(k, v)] ++ (rbraceC :: rest) =
              quoteC :: (serStrBody k.data ++
                (quoteC :: (':' :: (padK ++ (serV sp v ++ (rbraceC :: rest)))))) := by
            show (serStr k ++ (kvSepL sp ++ serV sp v)) ++ (rbraceC :: rest) = _
            rw [hKeq]
            simp [serStr]
          rw [parseJmembers_step, skipWs_allWs pad hpad, hser,
            skipWs_cons_not (show isWsC quoteC = false by decide)]
          simp only [if_self_eq]
          simp only [parseStr_ser]
          simp only [skipWs_cons_not (show isWsC ':' = false by decide), if_self_eq]
          rw [skipWs_allWs padK hKws, skipWs_serV]
          have hfv : (serV sp v).length < f := by
            have : (serMembers sp [(k, v)]).length =
                (serStr k).length + (kvSepL sp).length + (serV sp v).length := by
              show (serStr k ++ (kvSepL sp ++ serV sp v)).length = _
              simp
              omega
            omega
          rw [rt_v v sp f (rbraceC :: rest) hv hfv rfl]
          simp [skipWs_cons_not (show isWsC rbraceC = false by decide),
            if_neg (show ¬(rbraceC = ',') by decide)]
  | (k, v), m :: ms2, sp, fuel, pad, rest, hwf, hpad, hfl => by
      cases fuel with
      | zero => exact absurd hfl (Nat.not_lt_zero _)
      | succ f =>
          have hv : wfJ v = true := ((wfJM_iff _).mp hwf) (k, v) (by simp)
          have hwm : wfJM (m :: ms2) = true := by
            rw [wfJM_iff] at hwf ⊢
            exact fun a ha => hwf a (by simp [ha])
          obtain ⟨padK, hKeq, hKws⟩ := kvSepL_shape sp
          obtain ⟨padI, hIeq, hIws⟩ := itemSepL_shape sp
          have hser : serMembers sp ((k, v) :: m :: ms2) ++ (rbraceC :: rest) =
              quoteC :: (serStrBody k.data ++
                (quoteC :: (':' :: (padK ++ (serV sp v ++
                  (',' :: (padI ++ (serMembers sp (m :: ms2) ++ (rbraceC :: rest))))))))) := by
            show (serStr k ++ (kvSepL sp ++ serV sp v) ++
                (itemSepL sp ++ serMembers sp (m :: ms2))) ++ (rbraceC :: rest) = _
            rw [hKeq, hIeq]
            simp [serStr]
          rw [parseJmembers_step, skipWs_allWs pad hpad, hser,
            skipWs_cons_not (show isWsC quoteC = false by decide)]
          simp only [if_self_eq]
          simp only [parseStr_ser]
          simp only [skipWs_cons_not (show isWsC ':' = false by decide), if_self_eq]
          rw [skipWs_allWs padK hKws, skipWs_serV]
          have hlen : (serMembers sp ((k, v) :: m :: ms2)).length =
              (serStr k).length + (kvSepL sp).length + (serV sp v).length +
                (itemSepL sp).length + (serMembers sp (m :: ms2)).length := by
            show (serStr k ++ (kvSepL sp ++ serV sp v) ++
                (itemSepL sp ++ serMembers sp (m :: ms2))).length = _
            simp
            omega
          have hfv : (serV sp v).length < f := by omega
          rw [rt_v v sp f (',' :: (padI ++ (serMembers sp (m :: ms2) ++ (rbraceC :: rest))))
            hv hfv rfl]
          simp only [skipWs_cons_not (show isWsC ',' = false by decide), if_self_eq]
          have hfm : (serMembers sp (m :: ms2)).length + 1 < f := by
            have hs : 2 ≤ (serStr k).length := by
              simp [serStr]
            omega
          rw [rt_members m ms2 sp f padI rest hwm hIws hfm]
          rfl
  termination_by kv ms => sizeOf kv + sizeOf ms
  decreasing_by all_goals (simp_wf <;> (first | omega | (simp; omega) | simp))
end


/-! ### Top-level reader round trip -/

theorem json_loads_ser (sp : Bool) (j : Json) (h : wfJ j = true) :
    json_loads (String.mk (serV sp j)) = some j := by
  obtain ⟨c, t, hceq, hws, _, _, _⟩ := serV_head sp j
  have hskip : skipWs (serV sp j) = serV sp j := by
    rw [hceq]
    exact skipWs_cons_not hws t
  have hrt := rt_v j sp ((serV sp j).length + 1) [] h (by omega) rfl
  rw [List.append_nil] at hrt
  show (match parseJv ((skipWs (serV sp j)).length + 1) (skipWs (serV sp j)) with
    | some (j2, r) =>
        (match skipWs r with
         | [] => some j2
         | _ => none)
    | none => none) = some j
  rw [hskip, hrt]
  rfl

/-! ### UTF-8 round trip -/

theorem utf8DecodeOne_enc (c : Char) (rest : Bytes) :
    utf8DecodeOne (utf8EncodeChar c ++ rest) = some (c, rest) := by
  have hval := char_valid_toNat c
  by_cases h1 : c.toNat < 128
  · have he : utf8EncodeChar c ++ rest = c.toNat :: rest := by
      simp [utf8EncodeChar, h1]
    rw [he]
    show (if c.toNat < 128 then some (Char.ofNat c.toNat, rest) else _) = some (c, rest)
    rw [if_pos h1, Char.ofNat_toNat]
  · by_cases h2 : c.toNat < 2048
    · have he : utf8EncodeChar c ++ rest =
          (192 + c.toNat / 64) :: ((128 + c.toNat % 64) :: rest) := by
        simp [utf8EncodeChar, h1, h2]
      rw [he]
      show (if 192 + c.toNat / 64 < 128 then _
        else if 192 + c.toNat / 64 < 194 then none
        else if 192 + c.toNat / 64 < 224 then
          (if 128 ≤ 128 + c.toNat % 64 ∧ 128 + c.toNat % 64 < 192 then
            some (Char.ofNat ((192 + c.toNat / 64 - 192) * 64 + (128 + c.toNat % 64 - 128)), rest)
          else none)
        else _) = some (c, rest)
      rw [if_neg (by omega), if_neg (by omega), if_pos (by omega), if_pos (by omega),
        show (192 + c.toNat / 64 - 192) * 64 + (128 + c.toNat % 64 - 128) = c.toNat by omega,
        Char.ofNat_toNat]
    · by_cases h3 : c.toNat < 65536
      · have he : utf8EncodeChar c ++ rest =
            (224 + c.toNat / 4096) :: ((128 + c.toNat / 64 % 64) :: ((128 + c.toNat % 64) :: rest)) := by
          simp [utf8EncodeChar, h1, h2, h3]
        rw [he]
        show (if 224 + c.toNat / 4096 < 128 then _
          else if 224 + c.toNat / 4096 < 194 then none
          else if 224 + c.toNat / 4096 < 224 then _
          else if 224 + c.toNat / 4096 < 240 then
            (if 128 ≤ 128 + c.toNat / 64 % 64 ∧ 128 + c.toNat / 64 % 64 < 192 ∧
                128 ≤ 128 + c.toNat % 64 ∧ 128 + c.toNat % 64 < 192 then
              (if 2048 ≤ (224 + c.toNat / 4096 - 224) * 4096 + (128 + c.toNat / 64 % 64 - 128) * 64 +
                    (128 + c.toNat % 64 - 128) ∧
                  ((224 + c.toNat / 4096 - 224) * 4096 + (128 + c.toNat / 64 % 64 - 128) * 64 +
                    (128 + c.toNat % 64 - 128) < 55296 ∨
                  57343 < (224 + c.toNat / 4096 - 224) * 4096 + (128 + c.toNat / 64 % 64 - 128) * 64 +
                    (128 + c.toNat % 64 - 128)) then
                some (Char.ofNat ((224 + c.toNat / 4096 - 224) * 4096 +
                  (128 + c.toNat / 64 % 64 - 128) * 64 + (128 + c.toNat % 64 - 128)), rest)
              else none)
            else none)
          else _) = some (c, rest)
        have harith : (224 + c.toNat / 4096 - 224) * 4096 + (128 + c.toNat / 64 % 64 - 128) * 64 +
            (128 + c.toNat % 64 - 128) = c.toNat := by omega
        have hsur : c.toNat < 55296 ∨ 57343 < c.toNat := by
          rcases hval with h | h
          · exact Or.inl h
          · exact Or.inr h.1
        rw [if_neg (by omega), if_neg (by omega), if_neg (by omega), if_pos (by omega),
          if_pos (by omega), harith]
        rw [if_pos ⟨by omega, hsur⟩, Char.ofNat_toNat]
      · have hhi : c.toNat < 1114112 := by
          rcases hval with h | h
          · omega
          · exact h.2
        have he : utf8EncodeChar c ++ rest =
            (240 + c.toNat / 262144) :: ((128 + c.toNat / 4096 % 64) ::
              ((128 + c.toNat / 64 % 64) :: ((128 + c.toNat % 64) :: rest))) := by
          simp [utf8EncodeChar, h1, h2, h3]
        rw [he]
        show (if 240 + c.toNat / 262144 < 128 then _
          else if 240 + c.toNat / 262144 < 194 then none
          else if 240 + c.toNat / 262144 < 224 then _
          else if 240 + c.toNat / 262144 < 240 then _
          else if 240 + c.toNat / 262144 < 245 then
            (if 128 ≤ 128 + c.toNat / 4096 % 64 ∧ 128 + c.toNat / 4096 % 64 < 192 ∧
                128 ≤ 128 + c.toNat / 64 % 64 ∧ 128 + c.toNat / 64 % 64 < 192 ∧
                128 ≤ 128 + c.toNat % 64 ∧ 128 + c.toNat % 64 < 192 then
              (if 65536 ≤ (240 + c.toNat / 262144 - 240) * 262144 +
                    (128 + c.toNat / 4096 % 64 - 128) * 4096 +
                    (128 + c.toNat / 64 % 64 - 128) * 64 + (128 + c.toNat % 64 - 128) ∧
                  (240 + c.toNat / 262144 - 240) * 262144 +
                    (128 + c.toNat / 4096 % 64 - 128) * 4096 +
                    (128 + c.toNat / 64 % 64 - 128) * 64 + (128 + c.toNat % 64 - 128) < 1114112 then
                some (Char.ofNat ((240 + c.toNat / 262144 - 240) * 262144 +
                  (128 + c.toNat / 4096 % 64 - 128) * 4096 +
                  (128 + c.toNat / 64 % 64 - 128) * 64 + (128 + c.toNat % 64 - 128)), rest)
              else none)
            else none)
          else none) = some (c, rest)
        have harith : (240 + c.toNat / 262144 - 240) * 262144 +
            (128 + c.toNat / 4096 % 64 - 128) * 4096 +
            (128 + c.toNat / 64 % 64 - 128) * 64 + (128 + c.toNat % 64 - 128) = c.toNat := by
          omega
        rw [if_neg (by omega), if_neg (by omega), if_neg (by omega), if_neg (by omega),
          if_pos (by omega), if_pos (by omega), harith, if_pos (by omega), Char.ofNat_toNat]

theorem utf8EncodeChar_length_pos (c : Char) : 1 ≤ (utf8EncodeChar c).length := by
  simp only [utf8EncodeChar]
  repeat' split
  all_goals simp

theorem utf8DecodeAux_enc : ∀ (s : List Char) (f : Nat), (utf8Encode s).length ≤ f →
    utf8DecodeAux f (utf8Encode s) = some s := by
  intro s
  induction s with
  | nil =>
      intro f _
      show utf8DecodeAux f [] = some []
      cases f <;> rfl
  | cons c cs ih =>
      intro f hf
      have hlen := utf8EncodeChar_length_pos c
      have hshape : ∃ b t, utf8EncodeChar c = b :: t := by
        cases he : utf8EncodeChar c with
        | nil => rw [he] at hlen; exact absurd hlen (by simp)
        | cons b t => exact ⟨b, t, rfl⟩
      obtain ⟨b, t, hbt⟩ := hshape
      have henc : utf8Encode (c :: cs) = b :: (t ++ utf8Encode cs) := by
        show utf8EncodeChar c ++ utf8Encode cs = _
        rw [hbt]
        rfl
      rw [henc] at hf ⊢
      match f, hf with
      | f + 1, hf =>
        show (match utf8DecodeOne (b :: (t ++ utf8Encode cs)) with
          | some (c2, r) =>
              (match utf8DecodeAux f r with
               | some cs2 => some (c2 :: cs2)
               | none => none)
          | none => none) = some (c :: cs)
        have hone : utf8DecodeOne (b :: (t ++ utf8Encode cs)) = some (c, utf8Encode cs) := by
          have := utf8DecodeOne_enc c (utf8Encode cs)
          rw [hbt] at this
          simpa using this
        rw [hone]
        show (match utf8DecodeAux f (utf8Encode cs) with
          | some cs2 => some (c :: cs2)
          | none => none) = some (c :: cs)
        have hb2 : (utf8Encode cs).length ≤ f := by
          simp only [List.length_cons, List.length_append] at hf
          omega
        rw [ih f hb2]

theorem utf8Decode_enc (s : List Char) : utf8Decode (utf8Encode s) = some s :=
  utf8DecodeAux_enc s (utf8Encode s).length (Nat.le_refl _)

theorem jsonLoadsBytes_ser (sp : Bool) (j : Json) (h : wfJ j = true) :
    jsonLoadsBytes (utf8Encode (serV sp j)) = some j := by
  show (match utf8Decode (utf8Encode (serV sp j)) with
    | some cs => json_loads (String.mk cs)
    | none => none) = some j
  rw [utf8Decode_enc]
  exact json_loads_ser sp j h

/-! ### Values built by the reader are well-formed -/

theorem parseNum_wf (cs : List Char) (j : Json) (r : List Char)
    (h : parseNum cs = some (j, r)) : wfJ j = true := by
  cases cs with
  | nil => exact absurd h (by simp [parseNum])
  | cons c t =>
      simp only [parseNum] at h
      repeat' split at h
      all_goals first
        | exact Option.noConfusion h
        | (simp only [Option.some.injEq, Prod.mk.injEq] at h
           obtain ⟨rfl, rfl⟩ := h
           rfl)

theorem wfJM_buildDict (l : List (String × Json)) (h : wfJM l = true) :
    wfJM (buildDict l) = true := by
  suffices hs : ∀ acc : List (String × Json), wfJM acc = true →
      wfJM (List.foldl (fun a kv => dictSet a kv.1 kv.2) acc l) = true by
    exact hs [] rfl
  induction l with
  | nil => intro acc hacc; simpa using hacc
  | cons kv t ih =>
      intro acc hacc
      have hkv : wfJ kv.2 = true := by
        rw [wfJM_iff] at h
        exact h kv (by simp)
      have ht : wfJM t = true := by
        rw [wfJM_iff] at h ⊢
        exact fun a ha => h a (by simp [ha])
      exact (fun htl => ih htl (dictSet acc kv.1 kv.2) (wfJM_dictSet acc kv.1 kv.2 hacc hkv)) ht

theorem wfJ_obj_buildDict (ms : List (String × Json)) (h : wfJM ms = true) :
    wfJ (.obj (buildDict ms)) = true := by
  show (strNodup (keysOf (buildDict ms)) && wfJM (buildDict ms)) = true
  rw [Bool.and_eq_true]
  exact ⟨(strNodup_iff _).mpr (buildDict_keys_nodup ms), wfJM_buildDict ms h⟩

mutual
theorem parseJv_wf : ∀ (fuel : Nat) (cs : List Char) (j : Json) (r : List Char),
    parseJv fuel cs = some (j, r) → wfJ j = true
  | 0, cs, j, r, h => absurd h (by simp [parseJv])
  | fuel + 1, cs, j, r, h => by
      cases cs with
      | nil => exact absurd h (by simp [parseJv])
      | cons c r0 =>
          rw [parseJv_step] at h
          repeat' split at h
          all_goals first
            | exact Option.noConfusion h
            | exact parseNum_wf _ _ _ h
            | (simp only [Option.some.injEq, Prod.mk.injEq] at h
               obtain ⟨rfl, rfl⟩ := h
               first
                 | rfl
                 | exact (wfJL_iff _).mpr (parseJitems_wf fuel _ _ _ (by assumption))
                 | exact wfJ_obj_buildDict _
                     ((wfJM_iff _).mpr (parseJmembers_wf fuel _ _ _ (by assumption))))
  termination_by fuel => fuel
theorem parseJitems_wf : ∀ (fuel : Nat) (cs : List Char) (vs : List Json) (r : List Char),
    parseJitems fuel cs = some (vs, r) → ∀ x ∈ vs, wfJ x = true
  | 0, cs, vs, r, h => absurd h (by simp [parseJitems])
  | fuel + 1, cs, vs, r, h => by
      rw [parseJitems_step] at h
      repeat' split at h
      all_goals first
        | exact Option.noConfusion h
        | (simp only [Option.some.injEq, Prod.mk.injEq] at h
           obtain ⟨rfl, rfl⟩ := h
           intro x hx
           rcases List.mem_cons.mp hx with rfl | hx2
           · exact parseJv_wf fuel _ _ _ (by assumption)
           · first
               | exact parseJitems_wf fuel _ _ _ (by assumption) x hx2
               | exact absurd hx2 (List.not_mem_nil x))
  termination_by fuel => fuel
theorem parseJmembers_wf : ∀ (fuel : Nat) (cs : List Char) (ms : List (String × Json)) (r : List Char),
    parseJmembers fuel cs = some (ms, r) → ∀ kv ∈ ms, wfJ kv.2 = true
  | 0, cs, ms, r, h => absurd h (by simp [parseJmembers])
  | fuel + 1, cs, ms, r, h => by
      rw [parseJmembers_step] at h
      repeat' split at h
      all_goals first
        | exact Option.noConfusion h
        | (simp only [Option.some.injEq, Prod.mk.injEq] at h
           obtain ⟨rfl, rfl⟩ := h
           intro kv hkv
           rcases List.mem_cons.mp hkv with rfl | hkv2
           · exact parseJv_wf fuel _ _ _ (by assumption)
           · first
               | exact parseJmembers_wf fuel _ _ _ (by assumption) kv hkv2
               | exact absurd hkv2 (List.not_mem_nil kv))
  termination_by fuel => fuel
end

theorem json_loads_wf (s : String) (j : Json) (h : json_loads s = some j) : wfJ j = true := by
  simp only [json_loads] at h
  split at h
  · split at h
    · obtain rfl : _ = j := by simpa using h
      exact parseJv_wf _ _ _ _ (by assumption)
    · exact absurd h (by simp)
  · exact absurd h (by simp)

theorem jsonLoadsBytes_wf (bs : Bytes) (j : Json) (h : jsonLoadsBytes bs = some j) :
    wfJ j = true := by
  simp only [jsonLoadsBytes] at h
  split at h
  · exact json_loads_wf _ _ h
  · exact absurd h (by simp)


/-! ### Little-endian length fields -/

theorem readU32LE_u32le (n : Nat) (h : n < 4294967296) (rest : Bytes) :
    readU32LE (u32le n ++ rest) = n := by
  show n % 256 + 256 * (n / 256 % 256) + 65536 * (n / 65536 % 256) +
    16777216 * (n / 16777216 % 256) = n
  omega

theorem readU64LE_u32le (n : Nat) (h : n < 4294967296) (rest : Bytes) :
    readU64LE ((u32le n ++ [0, 0, 0, 0]) ++ rest) = n := by
  show n % 256 + 256 * (n / 256 % 256) + 65536 * (n / 65536 % 256) +
    16777216 * (n / 16777216 % 256) +
    4294967296 * (0 + 256 * 0 + 65536 * 0 + 16777216 * 0) = n
  omega

theorem take8_of_block (n : Nat) (hb payload : Bytes) :
    ((u32le n ++ [0, 0, 0, 0] ++ hb) ++ payload).take 8 = u32le n ++ [0, 0, 0, 0] := by
  have he : (u32le n ++ [0, 0, 0, 0] ++ hb) ++ payload =
      (u32le n ++ [0, 0, 0, 0]) ++ (hb ++ payload) := by simp
  rw [he, show (8 : Nat) = (u32le n ++ [0, 0, 0, 0] : Bytes).length by simp [u32le],
    List.take_left]

theorem drop8_of_block (n : Nat) (hb payload : Bytes) :
    ((u32le n ++ [0, 0, 0, 0] ++ hb) ++ payload).drop 8 = hb ++ payload := by
  have he : (u32le n ++ [0, 0, 0, 0] ++ hb) ++ payload =
      (u32le n ++ [0, 0, 0, 0]) ++ (hb ++ payload) := by simp
  rw [he, show (8 : Nat) = (u32le n ++ [0, 0, 0, 0] : Bytes).length by simp [u32le],
    List.drop_left]

theorem block_readU32 (hb payload : Bytes) (n : Nat) (h : n < 4294967296) :
    readU32LE (((u32le n ++ [0, 0, 0, 0] ++ hb) ++ payload).take 8) = n := by
  rw [take8_of_block]
  exact readU32LE_u32le n h [0, 0, 0, 0]

theorem block_header_segment (hb payload : Bytes) (h : hb.length < 4294967296) :
    header_segment ((u32le hb.length ++ [0, 0, 0, 0] ++ hb) ++ payload) = hb := by
  show (((u32le hb.length ++ [0, 0, 0, 0] ++ hb) ++ payload).drop 8).take
    (readU32LE (((u32le hb.length ++ [0, 0, 0, 0] ++ hb) ++ payload).take 8)) = hb
  rw [block_readU32 hb payload hb.length h, drop8_of_block, List.take_left]

theorem block_payload_segment (hb payload : Bytes) (h : hb.length < 4294967296) :
    payload_segment ((u32le hb.length ++ [0, 0, 0, 0] ++ hb) ++ payload) = payload := by
  show ((u32le hb.length ++ [0, 0, 0, 0] ++ hb) ++ payload).drop
    (8 + readU32LE (((u32le hb.length ++ [0, 0, 0, 0] ++ hb) ++ payload).take 8)) = payload
  rw [block_readU32 hb payload hb.length h]
  rw [show 8 + hb.length = (u32le hb.length ++ [0, 0, 0, 0] ++ hb : Bytes).length by
    simp [u32le]; omega]
  exact List.drop_left _ _

/-! ### Shape of a successful update -/

theorem update_compute_eq (file : Bytes) (nm : List (String × Json)) (out : Bytes)
    (h : update_compute file nm = some out) :
    ∃ header : List (String × Json),
      8 ≤ file.length ∧
      ((file.drop 8).take (readU32LE (file.take 8))).length = readU32LE (file.take 8) ∧
      jsonLoadsBytes ((file.drop 8).take (readU32LE (file.take 8))) = some (Json.obj header) ∧
      (pyEncodeUtf8 (json_dumps_compact (Json.obj (dictSet header "__metadata__"
        (Json.obj (buildFormatted nm)))))).length < 4294967296 ∧
      out = (u32le (pyEncodeUtf8 (json_dumps_compact (Json.obj (dictSet header "__metadata__"
          (Json.obj (buildFormatted nm)))))).length ++ [0, 0, 0, 0] ++
          pyEncodeUtf8 (json_dumps_compact (Json.obj (dictSet header "__metadata__"
            (Json.obj (buildFormatted nm)))))) ++
        file.drop (8 + readU32LE (file.take 8)) := by
  simp only [update_compute] at h
  by_cases h8 : (file.take 8).length < 8
  · rw [if_pos h8] at h
    exact Option.noConfusion h
  rw [if_neg h8] at h
  by_cases hml : ((file.drop 8).take (readU32LE (file.take 8))).length < readU32LE (file.take 8)
  · rw [if_pos hml] at h
    exact Option.noConfusion h
  rw [if_neg hml] at h
  cases hj : jsonLoadsBytes ((file.drop 8).take (readU32LE (file.take 8))) with
  | none =>
      rw [hj] at h
      exact Option.noConfusion h
  | some v =>
      rw [hj] at h
      cases v with
      | obj header =>
          replace h : (if (pyEncodeUtf8 (json_dumps_compact (Json.obj (dictSet header
                "__metadata__" (Json.obj (buildFormatted nm)))))).length < 4294967296 then
              some ((u32le (pyEncodeUtf8 (json_dumps_compact (Json.obj (dictSet header
                  "__metadata__" (Json.obj (buildFormatted nm)))))).length ++ [0, 0, 0, 0] ++
                  pyEncodeUtf8 (json_dumps_compact (Json.obj (dictSet header "__metadata__"
                    (Json.obj (buildFormatted nm)))))) ++
                file.drop (8 + readU32LE (file.take 8)))
            else none) = some out := h
          by_cases hsz : (pyEncodeUtf8 (json_dumps_compact (Json.obj (dictSet header
              "__metadata__" (Json.obj (buildFormatted nm)))))).length < 4294967296
          · rw [if_pos hsz] at h
            refine ⟨header, ?_, ?_, rfl, hsz, ?_⟩
            · rw [List.length_take] at h8
              omega
            · rw [List.length_take] at hml ⊢
              omega
            · exact (Option.some.inj h).symm
          · rw [if_neg hsz] at h
            exact Option.noConfusion h
      | null => exact Option.noConfusion h
      | bool b => exact Option.noConfusion h
      | num i => exact Option.noConfusion h
      | str s2 => exact Option.noConfusion h
      | arr xs => exact Option.noConfusion h

theorem extract_eq (file : Bytes) (r : ExtractResult)
    (h : extract_safetensors_metadata file = some r) :
    ∃ (header m : List (String × Json)),
      8 ≤ file.length ∧
      ((file.drop 8).take (readU32LE (file.take 8))).length = readU32LE (file.take 8) ∧
      jsonLoadsBytes ((file.drop 8).take (readU32LE (file.take 8))) = some (Json.obj header) ∧
      dictGet header "__metadata__" = some (Json.obj m) ∧
      m.isEmpty = false ∧
      r = ⟨m.map (fun kv => (kv.1, processValue kv.2)), m⟩ := by
  simp only [extract_safetensors_metadata, extractFromHeaderBytes] at h
  by_cases h8 : (file.take 8).length < 8
  · rw [if_pos h8] at h
    exact Option.noConfusion h
  rw [if_neg h8] at h
  by_cases hml : ((file.drop 8).take (readU32LE (file.take 8))).length < readU32LE (file.take 8)
  · rw [if_pos hml] at h
    exact Option.noConfusion h
  rw [if_neg hml] at h
  cases hj : jsonLoadsBytes ((file.drop 8).take (readU32LE (file.take 8))) with
  | none =>
      rw [hj] at h
      exact Option.noConfusion h
  | some v =>
      rw [hj] at h
      cases v with
      | obj header =>
          replace h : (if isFalsy ((dictGet header "__metadata__").getD (Json.obj [])) then
              none
            else
              match (dictGet header "__metadata__").getD (Json.obj []) with
              | Json.obj m =>
                  some (⟨m.map (fun kv => (kv.1, processValue kv.2)), m⟩ : ExtractResult)
              | _ => none) = some r := h
          cases hd : dictGet header "__metadata__" with
          | none =>
              rw [hd, Option.getD_none] at h
              rw [if_pos (by simp [isFalsy] : isFalsy (Json.obj []) = true)] at h
              exact Option.noConfusion h
          | some v2 =>
              rw [hd, Option.getD_some] at h
              by_cases hfal : isFalsy v2 = true
              · rw [if_pos hfal] at h
                exact Option.noConfusion h
              rw [if_neg hfal] at h
              cases v2 with
              | obj m =>
                  refine ⟨header, m, ?_, ?_, rfl, hd, ?_, ?_⟩
                  · rw [List.length_take] at h8
                    omega
                  · rw [List.length_take] at hml ⊢
                    omega
                  · simpa [isFalsy] using hfal
                  · exact (Option.some.inj h).symm
              | null => exact Option.noConfusion h
              | bool b => exact Option.noConfusion h
              | num i => exact Option.noConfusion h
              | str s2 => exact Option.noConfusion h
              | arr xs => exact Option.noConfusion h
      | null => exact Option.noConfusion h
      | bool b => exact Option.noConfusion h
      | num i => exact Option.noConfusion h
      | str s2 => exact Option.noConfusion h
      | arr xs => exact Option.noConfusion h

theorem extract_intro (hb payload : Bytes) (header2 m2 : List (String × Json))
    (hn : hb.length < 4294967296)
    (hjson : jsonLoadsBytes hb = some (Json.obj header2))
    (hmd : dictGet header2 "__metadata__" = some (Json.obj m2))
    (hm2 : m2.isEmpty = false) :
    extract_safetensors_metadata ((u32le hb.length ++ [0, 0, 0, 0] ++ hb) ++ payload) =
      some ⟨m2.map (fun kv => (kv.1, processValue kv.2)), m2⟩ := by
  simp only [extract_safetensors_metadata, extractFromHeaderBytes, take8_of_block,
    drop8_of_block]
  rw [readU32LE_u32le hb.length hn [0, 0, 0, 0], List.take_left]
  rw [if_neg (by simp [u32le] : ¬((u32le hb.length ++ [0, 0, 0, 0] : Bytes).length < 8)),
    if_neg (by omega : ¬(hb.length < hb.length)), hjson]
  show (if isFalsy ((dictGet header2 "__metadata__").getD (Json.obj [])) = true then none
    else
      match (dictGet header2 "__metadata__").getD (Json.obj []) with
      | Json.obj m => some (⟨m.map (fun kv => (kv.1, processValue kv.2)), m⟩ : ExtractResult)
      | _ => none) =
    some ⟨m2.map (fun kv => (kv.1, processValue kv.2)), m2⟩
  rw [hmd, Option.getD_some,
    if_neg (by simp [isFalsy, hm2] : ¬(isFalsy (Json.obj m2) = true))]

/-! ### The value policies -/

theorem processValue_eq_specRetype (v : Json) : processValue v = specRetype v := by
  cases v with
  | str s2 =>
      show (match json_loads s2 with
        | some j => j
        | none => Json.str s2) = (json_loads s2).getD (Json.str s2)
      cases hj : json_loads s2 <;> simp [Option.getD]
  | null => rfl
  | bool b => rfl
  | num i => rfl
  | arr xs => rfl
  | obj kvs => rfl

theorem processValue_formatValue (v : Json) (h : wfJ v = true) :
    processValue (formatValue v) = processValue v := by
  cases v with
  | arr xs =>
      show (match json_loads (json_dumps (Json.arr xs)) with
        | some j => j
        | none => Json.str (json_dumps (Json.arr xs))) = Json.arr xs
      have hl : json_loads (json_dumps (Json.arr xs)) = some (Json.arr xs) :=
        json_loads_ser false (Json.arr xs) h
      rw [hl]
  | obj kvs =>
      show (match json_loads (json_dumps (Json.obj kvs)) with
        | some j => j
        | none => Json.str (json_dumps (Json.obj kvs))) = Json.obj kvs
      have hl : json_loads (json_dumps (Json.obj kvs)) = some (Json.obj kvs) :=
        json_loads_ser false (Json.obj kvs) h
      rw [hl]
  | null => rfl
  | bool b => rfl
  | num i => rfl
  | str s2 => rfl

theorem keysOf_map_fv (m : List (String × Json)) :
    keysOf (m.map (fun kv => (kv.1, formatValue kv.2))) = keysOf m := by
  induction m with
  | nil => rfl
  | cons kv t ih => simp [keysOf]

theorem buildFormatted_eq (m : List (String × Json)) (h : (keysOf m).Nodup) :
    buildFormatted m = m.map (fun kv => (kv.1, formatValue kv.2)) := by
  calc buildFormatted m
      = buildDict (m.map (fun kv => (kv.1, formatValue kv.2))) := by
        show m.foldl (fun acc kv => dictSet acc kv.1 (formatValue kv.2)) [] = _
        rw [show buildDict (m.map (fun kv => (kv.1, formatValue kv.2))) =
          (m.map (fun kv => (kv.1, formatValue kv.2))).foldl
            (fun acc kv => dictSet acc kv.1 kv.2) [] from rfl, List.foldl_map]
    _ = m.map (fun kv => (kv.1, formatValue kv.2)) :=
        buildDict_nodup_id _ (by rw [keysOf_map_fv]; exact h)

theorem map_processValue_formatValue (m : List (String × Json)) (h : wfJM m = true) :
    (m.map (fun kv => (kv.1, formatValue kv.2))).map (fun kv => (kv.1, processValue kv.2)) =
      m.map (fun kv => (kv.1, processValue kv.2)) := by
  rw [List.map_map]
  apply List.map_congr_left
  intro kv hkv
  show (kv.1, processValue (formatValue kv.2)) = (kv.1, processValue kv.2)
  rw [processValue_formatValue kv.2 (((wfJM_iff m).mp h) kv hkv)]


/-! ### Dict and well-formedness helpers for the claims -/

theorem wfJM_map_fv (m : List (String × Json)) (h : wfJM m = true) :
    wfJM (m.map (fun kv => (kv.1, formatValue kv.2))) = true := by
  induction m with
  | nil => rfl
  | cons kv t ih =>
      obtain ⟨k1, v1⟩ := kv
      simp only [wfJM, Bool.and_eq_true] at h
      simp only [List.map_cons, wfJM, Bool.and_eq_true]
      exact ⟨wfJ_formatValue v1 h.1, ih h.2⟩

theorem drop8_cons (a0 a1 a2 a3 a4 a5 a6 a7 : Nat) (rest : Bytes) (n : Nat) :
    List.drop (8 + n) (a0 :: a1 :: a2 :: a3 :: a4 :: a5 :: a6 :: a7 :: rest) = rest.drop n := by
  rw [Nat.add_comm 8 n]
  rfl

theorem update_compute_high_bytes (b0 b1 b2 b3 x4 x5 x6 x7 y4 y5 y6 y7 : Nat) (rest : Bytes)
    (nm : List (String × Json)) :
    update_compute (b0 :: b1 :: b2 :: b3 :: x4 :: x5 :: x6 :: x7 :: rest) nm =
      update_compute (b0 :: b1 :: b2 :: b3 :: y4 :: y5 :: y6 :: y7 :: rest) nm := by
  simp only [update_compute]
  rw [show ((b0 :: b1 :: b2 :: b3 :: x4 :: x5 :: x6 :: x7 :: rest).take 8).length = 8 from rfl,
    show ((b0 :: b1 :: b2 :: b3 :: y4 :: y5 :: y6 :: y7 :: rest).take 8).length = 8 from rfl,
    show readU32LE ((b0 :: b1 :: b2 :: b3 :: x4 :: x5 :: x6 :: x7 :: rest).take 8) =
      b0 + 256 * b1 + 65536 * b2 + 16777216 * b3 from rfl,
    show readU32LE ((b0 :: b1 :: b2 :: b3 :: y4 :: y5 :: y6 :: y7 :: rest).take 8) =
      b0 + 256 * b1 + 65536 * b2 + 16777216 * b3 from rfl,
    show (b0 :: b1 :: b2 :: b3 :: x4 :: x5 :: x6 :: x7 :: rest).drop 8 = rest from rfl,
    show (b0 :: b1 :: b2 :: b3 :: y4 :: y5 :: y6 :: y7 :: rest).drop 8 = rest from rfl,
    drop8_cons b0 b1 b2 b3 x4 x5 x6 x7 rest (b0 + 256 * b1 + 65536 * b2 + 16777216 * b3),
    drop8_cons b0 b1 b2 b3 y4 y5 y6 y7 rest (b0 + 256 * b1 + 65536 * b2 + 16777216 * b3)]

/-! ### The claims -/

/-- C1: the length prefix is NOT read as a 64-bit value.  Extraction and
update are invariant under arbitrary changes to bytes 4–7 of the input, so
a file whose declared 64-bit header length is 2^32 + 2 is silently
processed with length 2 instead, and its update even reports success. -/
theorem claim_C1 :
    (∀ (b0 b1 b2 b3 x4 x5 x6 x7 y4 y5 y6 y7 : Nat) (rest : Bytes),
      extract_safetensors_metadata (b0 :: b1 :: b2 :: b3 :: x4 :: x5 :: x6 :: x7 :: rest) =
        extract_safetensors_metadata (b0 :: b1 :: b2 :: b3 :: y4 :: y5 :: y6 :: y7 :: rest)) ∧
    (∀ (b0 b1 b2 b3 x4 x5 x6 x7 y4 y5 y6 y7 : Nat) (rest : Bytes)
      (nm : List (String × Json)),
      update_compute (b0 :: b1 :: b2 :: b3 :: x4 :: x5 :: x6 :: x7 :: rest) nm =
        update_compute (b0 :: b1 :: b2 :: b3 :: y4 :: y5 :: y6 :: y7 :: rest) nm) ∧
    readU64LE highWordFile = 4294967298 ∧
    readU32LE (highWordFile.take 8) = 2 ∧
    (update_safetensors_metadata highWordFile []).fst = true :=
  ⟨fun _ _ _ _ _ _ _ _ _ _ _ _ _ => rfl,
   update_compute_high_bytes,
   by decide, by decide, by decide⟩

/-- C2: a successful update leaves the payload segment of the file — the
bytes after the declared header — unchanged in content and length; the
output is exactly a fresh 8-byte prefix, a fresh header, and the original
payload. -/
theorem claim_C2 (file : Bytes) (nm : List (String × Json)) (out : Bytes)
    (h : update_compute file nm = some out) :
    payload_segment out = payload_segment file ∧
    (payload_segment out).length = (payload_segment file).length ∧
    ∃ nhb : Bytes, out = (u32le nhb.length ++ [0, 0, 0, 0] ++ nhb) ++ payload_segment file := by
  obtain ⟨header, h8, hml, hj, hsz, hout⟩ := update_compute_eq file nm out h
  subst hout
  have hp : payload_segment ((u32le (pyEncodeUtf8 (json_dumps_compact (Json.obj (dictSet header
      "__metadata__" (Json.obj (buildFormatted nm)))))).length ++ [0, 0, 0, 0] ++
      pyEncodeUtf8 (json_dumps_compact (Json.obj (dictSet header "__metadata__"
        (Json.obj (buildFormatted nm)))))) ++ file.drop (8 + readU32LE (file.take 8))) =
      file.drop (8 + readU32LE (file.take 8)) :=
    block_payload_segment _ _ hsz
  exact ⟨hp, by rw [hp]; rfl, ⟨_, by rfl⟩⟩

theorem claim_C2_witness :
    update_compute sampleFile [] = some ((update_compute sampleFile []).getD []) ∧
    payload_segment ((update_compute sampleFile []).getD []) = payload_segment sampleFile :=
  ⟨by rfl, (claim_C2 sampleFile [] ((update_compute sampleFile []).getD []) (by rfl)).1⟩

/-- C4: in any update output, the first 8 bytes read as an unsigned 64-bit
little-endian integer equal the length of the JSON header bytes that
follow them (the low word is packed and the high word written as zero). -/
theorem claim_C4 (file : Bytes) (nm : List (String × Json)) (out : Bytes)
    (h : update_compute file nm = some out) :
    readU64LE out = (header_segment out).length ∧
    ∃ nhb : Bytes, out = (u32le nhb.length ++ [0, 0, 0, 0] ++ nhb) ++ payload_segment file ∧
      readU64LE out = nhb.length ∧ (out.drop 8).take (readU64LE out) = nhb := by
  obtain ⟨header, h8, hml, hj, hsz, hout⟩ := update_compute_eq file nm out h
  subst hout
  set nhb := pyEncodeUtf8 (json_dumps_compact (Json.obj (dictSet header "__metadata__"
    (Json.obj (buildFormatted nm))))) with hnhb
  have hassoc : (u32le nhb.length ++ [0, 0, 0, 0] ++ nhb) ++
      file.drop (8 + readU32LE (file.take 8)) =
      (u32le nhb.length ++ [0, 0, 0, 0]) ++ (nhb ++ file.drop (8 + readU32LE (file.take 8))) := by
    simp
  have h64 : readU64LE ((u32le nhb.length ++ [0, 0, 0, 0] ++ nhb) ++
      file.drop (8 + readU32LE (file.take 8))) = nhb.length := by
    rw [hassoc]
    exact readU64LE_u32le nhb.length hsz _
  have hhs : header_segment ((u32le nhb.length ++ [0, 0, 0, 0] ++ nhb) ++
      file.drop (8 + readU32LE (file.take 8))) = nhb := block_header_segment nhb _ hsz
  refine ⟨?_, nhb, by rfl, h64, ?_⟩
  · rw [h64, hhs]
  · rw [h64, drop8_of_block, List.take_left]

theorem claim_C4_witness :
    update_compute sampleFile nm7 = some ((update_compute sampleFile nm7).getD []) ∧
    readU64LE ((update_compute sampleFile nm7).getD []) =
      (header_segment ((update_compute sampleFile nm7).getD [])).length :=
  ⟨by rfl, (claim_C4 sampleFile nm7 ((update_compute sampleFile nm7).getD []) (by rfl)).1⟩

/-- C5: inputs shorter than 8 bytes, and inputs whose LOW-32-BIT declared
length exceeds the remaining bytes, are rejected by both operations — but
the declared length of the format is 64-bit, and a file declaring
2 * 2^32 + 2 header bytes while holding only 2 is accepted by the update,
because only the low word is read. -/
theorem claim_C5 :
    (∀ (file : Bytes) (nm : List (String × Json)), file.length < 8 →
      extract_safetensors_metadata file = none ∧
      (update_safetensors_metadata file nm).fst = false) ∧
    (∀ (file : Bytes) (nm : List (String × Json)),
      (file.drop 8).length < readU32LE (file.take 8) →
      extract_safetensors_metadata file = none ∧
      (update_safetensors_metadata file nm).fst = false) ∧
    readU64LE highWordFile2 = 8589934594 ∧
    highWordFile2.length = 10 ∧
    (update_safetensors_metadata highWordFile2 []).fst = true := by
  refine ⟨?_, ?_, by decide, by decide, by decide⟩
  · intro file nm hlen
    have h8 : (file.take 8).length < 8 := by
      rw [List.length_take]
      omega
    have hx : extract_safetensors_metadata file = none := by
      simp only [extract_safetensors_metadata]
      rw [if_pos h8]
    have hc : update_compute file nm = none := by
      simp only [update_compute]
      rw [if_pos h8]
    exact ⟨hx, by simp [update_safetensors_metadata, hc]⟩
  · intro file nm htr
    have hml : ((file.drop 8).take (readU32LE (file.take 8))).length <
        readU32LE (file.take 8) := by
      rw [List.length_take]
      omega
    have hx : extract_safetensors_metadata file = none := by
      simp only [extract_safetensors_metadata]
      by_cases h8 : (file.take 8).length < 8
      · rw [if_pos h8]
      · rw [if_neg h8, if_pos hml]
    have hc : update_compute file nm = none := by
      simp only [update_compute]
      by_cases h8 : (file.take 8).length < 8
      · rw [if_pos h8]
      · rw [if_neg h8, if_pos hml]
    exact ⟨hx, by simp [update_safetensors_metadata, hc]⟩

/-- C8: the `startswith` containment test lets a sibling directory whose
name extends the root pass: requesting `../databad/x.safetensors` under
root `/data` resolves to `/databad/x.safetensors`, which escapes the root
yet PROCEEDS in all three endpoints; an escape such as `../etc/passwd`
that does not share the root's name prefix is denied. -/
theorem claim_C8 :
    serve_file_check "/data" "../databad/x.safetensors" =
      RouteDecision.proceed "/databad/x.safetensors" ∧
    get_file_metadata_check "/data" "../databad/x.safetensors" =
      RouteDecision.proceed "/databad/x.safetensors" ∧
    update_file_metadata_check "/data" "../databad/x.safetensors" =
      RouteDecision.proceed "/databad/x.safetensors" ∧
    escapesRoot (os_abspath "/data") "/databad/x.safetensors" = true ∧
    serve_file_check "/data" "../etc/passwd" = RouteDecision.accessDenied := by
  refine ⟨?_, ?_, ?_, ?_, ?_⟩ <;> decide

/-- C9: when the update reports failure the on-disk bytes are the original
file, and no partial output exists: every failing path returns before the
write, and the output is assembled whole before it is written. -/
theorem claim_C9 (file : Bytes) (nm : List (String × Json))
    (hfail : (update_safetensors_metadata file nm).fst = false) :
    (update_safetensors_metadata file nm).snd = file ∧ update_compute file nm = none := by
  cases hc : update_compute file nm with
  | none => exact ⟨by simp [update_safetensors_metadata, hc], rfl⟩
  | some out => simp [update_safetensors_metadata, hc] at hfail

theorem claim_C9_witness :
    (update_safetensors_metadata truncatedFile []).fst = false ∧
    ((update_safetensors_metadata truncatedFile []).snd = truncatedFile ∧
      update_compute truncatedFile [] = none) :=
  ⟨by rfl, claim_C9 truncatedFile [] (by rfl)⟩

/-- C10: extraction reads nothing past the declared header: two inputs that
agree on the prefix up to 8 bytes plus the declared header length produce
identical extraction results, whatever their payloads. -/
theorem claim_C10 (f g : Bytes)
    (h : f.take (8 + readU32LE (f.take 8)) = g.take (8 + readU32LE (g.take 8))) :
    extract_safetensors_metadata f = extract_safetensors_metadata g := by
  by_cases h8f : f.length < 8
  · have hfl : f.take (8 + readU32LE (f.take 8)) = f :=
      List.take_of_length_le (by omega)
    have hgl : (g.take (8 + readU32LE (g.take 8))).length < 8 := by
      rw [← h, hfl]
      omega
    have h8g : g.length < 8 := by
      rw [List.length_take] at hgl
      omega
    have hx : extract_safetensors_metadata f = none := by
      simp only [extract_safetensors_metadata]
      rw [if_pos (by rw [List.length_take]; omega)]
    have hy : extract_safetensors_metadata g = none := by
      simp only [extract_safetensors_metadata]
      rw [if_pos (by rw [List.length_take]; omega)]
    rw [hx, hy]
  · have hf8 : f.take 8 = g.take 8 := by
      have h1 : (f.take (8 + readU32LE (f.take 8))).take 8 = f.take 8 := by
        rw [List.take_take]
        congr 1
        omega
      have h2 : (g.take (8 + readU32LE (g.take 8))).take 8 = g.take 8 := by
        rw [List.take_take]
        congr 1
        omega
      rw [← h1, h, h2]
    have hmb : (f.drop 8).take (readU32LE (f.take 8)) =
        (g.drop 8).take (readU32LE (g.take 8)) := by
      have hfe : (f.drop 8).take (readU32LE (f.take 8)) =
          (f.take (8 + readU32LE (f.take 8))).drop 8 := by
        rw [List.drop_take]
        congr 1
        omega
      have hge : (g.drop 8).take (readU32LE (g.take 8)) =
          (g.take (8 + readU32LE (g.take 8))).drop 8 := by
        rw [List.drop_take]
        congr 1
        omega
      rw [hfe, hge, h]
    simp only [extract_safetensors_metadata]
    rw [hmb, hf8]

theorem claim_C10_witness :
    sampleFile.take (8 + readU32LE (sampleFile.take 8)) =
      (sampleFile.take 34 ++ [9, 9, 9, 9, 9]).take
        (8 + readU32LE ((sampleFile.take 34 ++ [9, 9, 9, 9, 9]).take 8)) ∧
    extract_safetensors_metadata sampleFile =
      extract_safetensors_metadata (sampleFile.take 34 ++ [9, 9, 9, 9, 9]) :=
  ⟨by decide, claim_C10 sampleFile (sampleFile.take 34 ++ [9, 9, 9, 9, 9]) (by decide)⟩


/-- C3: round trip.  Extracting a valid container and updating it with its
own formatted metadata preserves the payload bytes exactly, yields a
container whose extracted structured metadata equals the original, and
touches no header key other than `__metadata__`. -/
theorem claim_C3 (file : Bytes) (r : ExtractResult) (out : Bytes)
    (hx : extract_safetensors_metadata file = some r)
    (hu : update_compute file r.formatted_metadata = some out) :
    payload_segment out = payload_segment file ∧
    (∃ r2, extract_safetensors_metadata out = some r2 ∧ r2.metadata = r.metadata) ∧
    ∃ header header2, headerJson file = some (Json.obj header) ∧
      headerJson out = some (Json.obj header2) ∧
      ∀ k, ¬(k = "__metadata__") → dictGet header2 k = dictGet header k := by
  obtain ⟨header, m, hel8, heml, hjsonF, hmd, hmE, hr⟩ := extract_eq file r hx
  obtain ⟨header', hul8, huml, hjson', hsz, hout⟩ :=
    update_compute_eq file r.formatted_metadata out hu
  rw [hjsonF] at hjson'
  obtain rfl : header = header' := Json.obj.inj (Option.some.inj hjson')
  have hfm : r.formatted_metadata = m := by rw [hr]
  rw [hfm] at hsz hout
  have hwfH : wfJ (Json.obj header) = true := jsonLoadsBytes_wf _ _ hjsonF
  have hwfH2 := hwfH
  simp only [wfJ, Bool.and_eq_true] at hwfH2
  obtain ⟨hndH, hwfMH⟩ := hwfH2
  have hwfm_obj : wfJ (Json.obj m) = true := dictGet_wf header "__metadata__" (Json.obj m) hwfMH hmd
  have hwfm2 := hwfm_obj
  simp only [wfJ, Bool.and_eq_true] at hwfm2
  obtain ⟨hndm, hwfMm⟩ := hwfm2
  have hndmP : (keysOf m).Nodup := (strNodup_iff _).mp hndm
  have hbf : buildFormatted m = m.map (fun kv => (kv.1, formatValue kv.2)) :=
    buildFormatted_eq m hndmP
  have hwf2 : wfJ (Json.obj (dictSet header "__metadata__"
      (Json.obj (buildFormatted m)))) = true := by
    simp only [wfJ, Bool.and_eq_true]
    refine ⟨(strNodup_iff _).mpr (keysOf_dictSet_nodup header _ _ ((strNodup_iff _).mp hndH)),
      wfJM_dictSet header _ _ hwfMH ?_⟩
    rw [hbf]
    simp only [wfJ, Bool.and_eq_true]
    refine ⟨?_, wfJM_map_fv m hwfMm⟩
    rw [show keysOf (m.map fun kv => (kv.1, formatValue kv.2)) = keysOf m from keysOf_map_fv m]
    exact hndm
  set nhb := pyEncodeUtf8 (json_dumps_compact (Json.obj (dictSet header "__metadata__"
    (Json.obj (buildFormatted m))))) with hnhb
  have hparse : jsonLoadsBytes nhb = some (Json.obj (dictSet header "__metadata__"
      (Json.obj (buildFormatted m)))) := by
    rw [hnhb]
    exact jsonLoadsBytes_ser true _ hwf2
  have hgd : dictGet (dictSet header "__metadata__" (Json.obj (buildFormatted m)))
      "__metadata__" = some (Json.obj (m.map (fun kv => (kv.1, formatValue kv.2)))) := by
    rw [dictGet_dictSet_self, hbf]
  have hmE2 : (m.map (fun kv => (kv.1, formatValue kv.2))).isEmpty = false := by
    cases m with
    | nil => simp at hmE
    | cons a t => rfl
  subst hout
  refine ⟨block_payload_segment nhb _ hsz,
    ⟨⟨(m.map (fun kv => (kv.1, formatValue kv.2))).map (fun kv => (kv.1, processValue kv.2)),
      m.map (fun kv => (kv.1, formatValue kv.2))⟩, ?_, ?_⟩,
    header, dictSet header "__metadata__" (Json.obj (buildFormatted m)), hjsonF, ?_, ?_⟩
  · exact extract_intro nhb _ (dictSet header "__metadata__" (Json.obj (buildFormatted m)))
      (m.map (fun kv => (kv.1, formatValue kv.2))) hsz hparse hgd hmE2
  · rw [hr]
    exact map_processValue_formatValue m hwfMm
  · show jsonLoadsBytes (header_segment ((u32le nhb.length ++ [0, 0, 0, 0] ++ nhb) ++
      file.drop (8 + readU32LE (file.take 8)))) = _
    rw [block_header_segment nhb _ hsz]
    exact hparse
  · intro k hk
    exact dictGet_dictSet_ne header "__metadata__" _ k (fun he => hk he.symm)

theorem claim_C3_witness :
    extract_safetensors_metadata sampleFile =
      some ((extract_safetensors_metadata sampleFile).getD emptyExtract) ∧
    update_compute sampleFile
        ((extract_safetensors_metadata sampleFile).getD emptyExtract).formatted_metadata =
      some ((update_compute sampleFile
        ((extract_safetensors_metadata sampleFile).getD emptyExtract).formatted_metadata).getD
        []) ∧
    payload_segment ((update_compute sampleFile
        ((extract_safetensors_metadata sampleFile).getD emptyExtract).formatted_metadata).getD
        []) = payload_segment sampleFile :=
  ⟨by rfl, by rfl,
    (claim_C3 sampleFile ((extract_safetensors_metadata sampleFile).getD emptyExtract)
      ((update_compute sampleFile
        ((extract_safetensors_metadata sampleFile).getD emptyExtract).formatted_metadata).getD
        []) (by rfl) (by rfl)).1⟩

/-- C6: the update does NOT stringify scalar metadata values.  Objects and
arrays are serialized to JSON strings, but a number or boolean passes
through unchanged and is stored under `__metadata__` as a bare JSON number
or boolean, not as a string. -/
theorem claim_C6 :
    isStrJ (formatValue (Json.num 8)) = false ∧
    isStrJ (formatValue (Json.bool true)) = false ∧
    formatValue (Json.arr [Json.str "a"]) = Json.str (json_dumps (Json.arr [Json.str "a"])) ∧
    update_compute sampleFile [("rank", Json.num 8), ("flag", Json.bool true)] =
      some ((update_compute sampleFile
        [("rank", Json.num 8), ("flag", Json.bool true)]).getD []) ∧
    headerJson ((update_compute sampleFile
        [("rank", Json.num 8), ("flag", Json.bool true)]).getD []) =
      some (Json.obj [("__metadata__",
        Json.obj [("rank", Json.num 8), ("flag", Json.bool true)])]) :=
  ⟨rfl, rfl, rfl, by rfl, by rfl⟩

/-- C7: the specification's structured round-trip scenario holds: writing
tags = the list ["a", "b"] and rank = the number 8 and extracting again
returns the list and the number, because every string value is re-parsed
as JSON where possible; the re-typing policy agrees with the
specification's lookup-then-fallback description on every value. -/
theorem claim_C7 :
    (∃ out r, update_compute sampleFile nm7 = some out ∧
      extract_safetensors_metadata out = some r ∧
      dictGet r.metadata "tags" = some (Json.arr [Json.str "a", Json.str "b"]) ∧
      dictGet r.metadata "rank" = some (Json.num 8) ∧
      dictGet r.formatted_metadata "tags" = some (Json.str "[\"a\", \"b\"]")) ∧
    ∀ v, processValue v = specRetype v :=
  ⟨⟨(update_compute sampleFile nm7).getD [],
    (extract_safetensors_metadata ((update_compute sampleFile nm7).getD [])).getD emptyExtract,
    by rfl, by rfl, by rfl, by rfl, by rfl⟩,
   processValue_eq_specRetype⟩

end SafetensorsCodec

